import Mathlib

/-!
# Verification of the GA4 batch report runner

A shallow embedding of the batch orchestration and result-reconciliation
engine of the `ga4-analytics-api` repository (files `app/report.py` and
`app/batch.py`), together with theorems settling the specification claims.

Conventions of the embedding:
* Python `list` becomes `List`; Python `dict` (which preserves insertion
  order and has unique keys) becomes an insertion-ordered association list
  `List (String × α)` together with the operations `odLookup` and `odSet`
  mirroring `d[k]` / `d[k] = v`.
* The GA4 network call `run_report` is abstracted as an oracle of type
  `Query` supplied to the orchestrator; a raised exception becomes
  `Except.error msg` where `msg` stands for the Python
  `f"{type(exc).__name__}: {exc}"` rendering of the exception.
* Wall-clock effects (`time.sleep`) and file effects (CSV writes) are
  recorded as an ordered `Event` trace carried in the run state, so that
  temporal claims become claims about the trace.
-/

/-! ## Metric Chunker (`app/report.py`) -/

/-- Constant `MAX_METRICS_PER_REQUEST = 10` from `app/report.py`. -/
def MAX_METRICS_PER_REQUEST : Nat := 10

/-- Embedding of `chunk_metrics` from `app/report.py`:

    return [metrics[i : i + max_size] for i in range(0, len(metrics), max_size)]

Python `range(0, L, M)` for `M > 0` is the arithmetic progression
`0, M, 2M, …` of length `⌈L / M⌉ = (L + M - 1) / M`, which is exactly
`List.range' 0 ((L + M - 1) / M) M`; the slice `metrics[i : i + max_size]`
is `(metrics.drop i).take max_size`.  For `M = 0` Python `range` raises
`ValueError`, modelled as `none` (no caller in the repository passes 0;
the default is 10). -/
def chunk_metrics (metrics : List String) (max_size : Nat) :
    Option (List (List String)) :=
  if max_size = 0 then none
  else
    some ((List.range' 0 ((metrics.length + max_size - 1) / max_size) max_size).map
      (fun i => (metrics.drop i).take max_size))

/-- Reference recursion for the chunker, used to validate the index-based
definition above and to prove its properties by induction. -/
def chunkRec (l : List String) (M : Nat) : List (List String) :=
  if h : M = 0 ∨ l = [] then []
  else l.take M :: chunkRec (l.drop M) M
termination_by l.length
decreasing_by
  push_neg at h
  simp only [List.length_drop]
  have hl : l.length ≠ 0 := by
    intro h0
    exact h.2 (List.eq_nil_of_length_eq_zero h0)
  omega

/-- One step of the ceiling-division recurrence used by the chunk count. -/
theorem ceil_div_step (L M : Nat) (hM : 0 < M) (hL : 0 < L) :
    (L + M - 1) / M = (L - M + M - 1) / M + 1 := by
  rcases Nat.le_total L M with h | h
  · have h2 : (L - M + M - 1) / M = 0 := by
      have h1 : L - M = 0 := by omega
      rw [h1]
      exact Nat.div_eq_of_lt (by omega)
    have h3 : (L + M - 1) / M = 1 := by
      rw [show L + M - 1 = (L - 1) + 1 * M from by omega,
        Nat.add_mul_div_right _ _ hM, Nat.div_eq_of_lt (show L - 1 < M by omega)]
    rw [h3, h2]
  · have h1 : L + M - 1 = (L - M + M - 1) + M := by omega
    rw [h1, Nat.add_div_right _ hM]

/-- Shifting the start of a stepped range. -/
theorem range'_shift (step : Nat) :
    ∀ (n s : Nat), List.range' (s + step) n step =
      (List.range' s n step).map (· + step) := by
  intro n
  induction n with
  | zero => intro s; simp
  | succ k ih =>
    intro s
    rw [List.range'_succ, List.range'_succ, List.map_cons, ← ih (s + step)]

/-- The index-based chunker agrees with the reference recursion for every
positive chunk size. -/
theorem chunk_metrics_eq_chunkRec (M : Nat) (hM : 0 < M) :
    ∀ l : List String, chunk_metrics l M = some (chunkRec l M) := by
  have main : ∀ (n : Nat) (l : List String), l.length ≤ n →
      (List.range' 0 ((l.length + M - 1) / M) M).map
        (fun i => (l.drop i).take M) = chunkRec l M := by
    intro n
    induction n with
    | zero =>
      intro l hl
      have : l = [] := List.eq_nil_of_length_eq_zero (by omega)
      subst this
      rw [chunkRec]
      simp [Nat.div_eq_of_lt (by omega : M - 1 < M)]
    | succ k ih =>
      intro l hl
      rcases eq_or_ne l [] with rfl | hne
      · rw [chunkRec]
        simp [Nat.div_eq_of_lt (by omega : M - 1 < M)]
      · have hLpos : 0 < l.length := List.length_pos.mpr hne
        rw [chunkRec, dif_neg (by push_neg; exact ⟨by omega, hne⟩)]
        rw [ceil_div_step l.length M hM hLpos, List.range'_succ, List.map_cons]
        rw [range'_shift M ((l.length - M + M - 1) / M) 0, List.map_map]
        have hdroplen : (l.drop M).length = l.length - M := List.length_drop M l
        have hrec := ih (l.drop M) (by rw [hdroplen]; omega)
        rw [hdroplen] at hrec
        have hfun : ((fun i => List.take M (List.drop i l)) ∘ fun x => x + M) =
            fun i => List.take M (List.drop i (List.drop M l)) := by
          funext i
          simp [Function.comp, List.drop_drop, Nat.add_comm]
        rw [hfun, hrec, List.drop_zero]
  intro l
  unfold chunk_metrics
  rw [if_neg (by omega)]
  exact congrArg some (main l.length l le_rfl)

/-- Concatenating the chunks reproduces the input list. -/
theorem chunkRec_flatten (M : Nat) (hM : 0 < M) :
    ∀ l : List String, (chunkRec l M).flatten = l := by
  have main : ∀ (n : Nat) (l : List String), l.length ≤ n →
      (chunkRec l M).flatten = l := by
    intro n
    induction n with
    | zero =>
      intro l hl
      have : l = [] := List.eq_nil_of_length_eq_zero (by omega)
      subst this
      rw [chunkRec]; simp
    | succ k ih =>
      intro l hl
      rcases eq_or_ne l [] with rfl | hne
      · rw [chunkRec]; simp
      · have hLpos : 0 < l.length := List.length_pos.mpr hne
        rw [chunkRec, dif_neg (by push_neg; exact ⟨by omega, hne⟩)]
        rw [List.flatten_cons, ih (l.drop M) (by simp [List.length_drop]; omega)]
        exact List.take_append_drop M l
  intro l
  exact main l.length l le_rfl

/-- The number of chunks is `⌈L / M⌉` rendered as `(L + M - 1) / M`. -/
theorem chunkRec_length (M : Nat) (hM : 0 < M) :
    ∀ l : List String, (chunkRec l M).length = (l.length + M - 1) / M := by
  have main : ∀ (n : Nat) (l : List String), l.length ≤ n →
      (chunkRec l M).length = (l.length + M - 1) / M := by
    intro n
    induction n with
    | zero =>
      intro l hl
      have : l = [] := List.eq_nil_of_length_eq_zero (by omega)
      subst this
      rw [chunkRec]
      simp [Nat.div_eq_of_lt (by omega : M - 1 < M)]
    | succ k ih =>
      intro l hl
      rcases eq_or_ne l [] with rfl | hne
      · rw [chunkRec]
        simp [Nat.div_eq_of_lt (by omega : M - 1 < M)]
      · have hLpos : 0 < l.length := List.length_pos.mpr hne
        rw [chunkRec, dif_neg (by push_neg; exact ⟨by omega, hne⟩)]
        rw [List.length_cons, ih (l.drop M) (by simp [List.length_drop]; omega)]
        rw [List.length_drop, ceil_div_step l.length M hM hLpos]
  intro l
  exact main l.length l le_rfl

/-- No chunk exceeds the maximum size. -/
theorem chunkRec_chunk_le (M : Nat) (hM : 0 < M) :
    ∀ (l : List String), ∀ c ∈ chunkRec l M, c.length ≤ M := by
  have main : ∀ (n : Nat) (l : List String), l.length ≤ n →
      ∀ c ∈ chunkRec l M, c.length ≤ M := by
    intro n
    induction n with
    | zero =>
      intro l hl c hc
      have : l = [] := List.eq_nil_of_length_eq_zero (by omega)
      subst this
      rw [chunkRec] at hc
      simp at hc
    | succ k ih =>
      intro l hl c hc
      rcases eq_or_ne l [] with rfl | hne
      · rw [chunkRec] at hc; simp at hc
      · rw [chunkRec, dif_neg (by push_neg; exact ⟨by omega, hne⟩)] at hc
        rcases List.mem_cons.mp hc with rfl | htail
        · simpa using Nat.min_le_left M l.length
        · exact ih (l.drop M) (by simp [List.length_drop]; omega) c htail
  intro l
  exact main l.length l le_rfl

/-- C1. The Metric Chunker: for every non-empty metric list of length `L`
and every `maxSize M > 0`, `chunk_metrics` succeeds and returns exactly
`⌈L / M⌉` chunks, each chunk has length at most `M`, and the concatenation
of the chunks in order equals the input list exactly (so no metric is
duplicated or dropped). -/
theorem chunk_metrics_spec (metrics : List String) (M : Nat)
    (hne : metrics ≠ []) (hM : 0 < M) :
    ∃ cs, chunk_metrics metrics M = some cs ∧
      cs.length = (metrics.length + M - 1) / M ∧
      (∀ c ∈ cs, c.length ≤ M) ∧
      cs.flatten = metrics := by
  refine ⟨chunkRec metrics M, chunk_metrics_eq_chunkRec M hM metrics, ?_, ?_, ?_⟩
  · exact chunkRec_length M hM metrics
  · exact chunkRec_chunk_le M hM metrics
  · exact chunkRec_flatten M hM metrics

/-- Witness for `chunk_metrics_spec`: three metrics with maximum chunk
size two split into two chunks. -/
theorem chunk_metrics_spec_witness :
    ∃ cs, chunk_metrics ["activeUsers", "sessions", "newUsers"] 2 = some cs ∧
      cs.length = ((["activeUsers", "sessions", "newUsers"] : List String).length + 2 - 1) / 2 ∧
      (∀ c ∈ cs, c.length ≤ 2) ∧
      cs.flatten = ["activeUsers", "sessions", "newUsers"] :=
  chunk_metrics_spec ["activeUsers", "sessions", "newUsers"] 2 (by decide) (by decide)

/-- C2 counterexample. Calling the Metric Chunker with an empty metrics
list does not fail: with the default maximum size 10 it returns the empty
chunk list normally.  (No `InvalidInputError` exists anywhere in the
repository.) -/
theorem chunk_metrics_empty_succeeds :
    chunk_metrics [] MAX_METRICS_PER_REQUEST = some [] := by
  unfold chunk_metrics MAX_METRICS_PER_REQUEST
  norm_num

/-- C2 amended. For every positive `maxSize`, the Metric Chunker never
fails: on an empty metrics list it returns the empty chunk list, and on
any metrics list it returns some chunk list.  Its only failure mode is a
zero `maxSize` (Python's `range` rejects a zero step), which no caller in
the repository can trigger since the only call site uses the default 10. -/
theorem chunk_metrics_no_failure (metrics : List String) (M : Nat) (hM : 0 < M) :
    chunk_metrics [] M = some [] ∧
    (∃ cs, chunk_metrics metrics M = some cs) ∧
    chunk_metrics metrics 0 = none := by
  refine ⟨?_, ⟨chunkRec metrics M, chunk_metrics_eq_chunkRec M hM metrics⟩, rfl⟩
  unfold chunk_metrics
  rw [if_neg (by omega)]
  simp [Nat.div_eq_of_lt (by omega : M - 1 < M)]

/-- Witness for `chunk_metrics_no_failure` at a singleton metric list and
the default maximum size. -/
theorem chunk_metrics_no_failure_witness :
    chunk_metrics [] 10 = some [] ∧
    (∃ cs, chunk_metrics ["sessions"] 10 = some cs) ∧
    chunk_metrics ["sessions"] 0 = none :=
  chunk_metrics_no_failure ["sessions"] 10 (by decide)

/-! ## Ordered dictionaries

Python `dict` preserves insertion order and has unique keys.  We embed it
as an association list; `odSet` mirrors `d[k] = v` (update in place when
the key exists, append otherwise) and `odLookup` mirrors `d.get(k)`. -/

/-- The keys of an ordered dictionary, in order. -/
def odKeys {α : Type} (d : List (String × α)) : List String :=
  d.map Prod.fst

/-- Lookup `d.get(k)`: the value at the first occurrence of key `k`. -/
def odLookup {α : Type} : List (String × α) → String → Option α
  | [], _ => none
  | (k', v) :: t, k => if k = k' then some v else odLookup t k

/-- Assignment `d[k] = v`: replace the value in place at the (unique)
occurrence of `k` when present, append `(k, v)` otherwise. -/
def odSet {α : Type} : List (String × α) → String → α → List (String × α)
  | [], k, v => [(k, v)]
  | (k', v') :: t, k, v =>
      if k = k' then (k, v) :: t else (k', v') :: odSet t k v

/-- Update `d.update(items)`: assign each pair in order. -/
def odSetMany {α : Type} (d : List (String × α))
    (items : List (String × α)) : List (String × α) :=
  items.foldl (fun acc p => odSet acc p.1 p.2) d

/-! ## Row Reconciler (`app/batch.py`, lines 128–140) -/

/-- A raw result row (`rawRow`): maps requested dimension and metric names
to returned string values. -/
abbrev Row := List (String × String)

/-- The per-cell combined-row map `combined_rows : dict[str, dict]`. -/
abbrev RowMap := List (String × Row)

/-- The merge key:
`"|".join(row.get(d, "") for d in dimensions) if dimensions else "__total__"`. -/
def dimKeyOf (dims : List String) (row : Row) : String :=
  if dims.isEmpty then "__total__"
  else String.intercalate "|" (dims.map (fun d => (odLookup row d).getD ""))

/-- The header dict `{"brand_name": …, "property_id": …, "period": …}`. -/
def headerDict (brand_name property_id period : String) : Row :=
  [("brand_name", brand_name), ("property_id", property_id), ("period", period)]

/-- Seeding a fresh combined row: the header dict followed by
`combined_rows[dim_key][d] = row.get(d, "")` for each dimension `d`. -/
def seedRow (hdr : Row) (dims : List String) (row : Row) : Row :=
  odSetMany hdr (dims.map (fun d => (d, (odLookup row d).getD "")))

/-- The update dict `{m: row[m] for m in chunk if m in row}`, as the list
of its insertions (metric names within a chunk are pairwise distinct, so
the comprehension inserts exactly these pairs in this order). -/
def updItems (chunk : List String) (row : Row) : List (String × String) :=
  chunk.filterMap (fun m => (odLookup row m).map (fun v => (m, v)))

/-- Guard `if dim_key not in combined_rows: combined_rows[dim_key] = …seed…`. -/
def ensureKey (m : RowMap) (k : String) (seed : Row) : RowMap :=
  if k ∈ odKeys m then m else odSet m k seed

/-- Merging one raw row into the combined-row map (the body of
`for row in rows` in `run_batch`): insert a seeded row if the merge key is
new, then `combined_rows[dim_key].update({m: row[m] for m in chunk if m in row})`. -/
def mergeRow (m : RowMap) (hdr : Row) (dims : List String)
    (chunk : List String) (row : Row) : RowMap :=
  odSet (ensureKey m (dimKeyOf dims row) (seedRow hdr dims row)) (dimKeyOf dims row)
    (odSetMany
      ((odLookup (ensureKey m (dimKeyOf dims row) (seedRow hdr dims row))
        (dimKeyOf dims row)).getD [])
      (updItems chunk row))

/-- Merging every raw row of one chunk result, in order. -/
def mergeRows (m : RowMap) (hdr : Row) (dims : List String)
    (chunk : List String) (rows : List Row) : RowMap :=
  rows.foldl (fun acc r => mergeRow acc hdr dims chunk r) m

/-- C10. The merge key is the `'|'`-join of the dimension values, and it
is not injective: two rows whose dimension-value tuples are distinct (one
value containing `'|'`) produce the same key, and merging both yields a
single CombinedRow. -/
theorem dim_key_collision :
    dimKeyOf ["country", "city"] [("country", "US|east"), ("city", "NY")] = "US|east|NY" ∧
    dimKeyOf ["country", "city"] [("country", "US"), ("city", "east|NY")] = "US|east|NY" ∧
    odLookup [("country", "US|east"), ("city", "NY")] "country" ≠
      odLookup [("country", "US"), ("city", "east|NY")] "country" ∧
    odKeys (mergeRows [] (headerDict "Acme" "123" "q1") ["country", "city"]
      ["sessions"]
      [[("country", "US|east"), ("city", "NY")], [("country", "US"), ("city", "east|NY")]]) =
      ["US|east|NY"] := by
  refine ⟨?_, ?_, ?_, ?_⟩ <;> decide

/-! ## Ordered-dictionary lemmas -/

theorem odLookup_eq_none_iff {α : Type} (d : List (String × α)) (k : String) :
    odLookup d k = none ↔ k ∉ odKeys d := by
  induction d with
  | nil => simp [odLookup, odKeys]
  | cons p t ih =>
    obtain ⟨a, b⟩ := p
    by_cases hka : k = a
    · subst hka
      simp [odLookup, odKeys]
    · simp [odLookup, odKeys, hka, ih]

theorem odLookup_isSome_iff {α : Type} (d : List (String × α)) (k : String) :
    (odLookup d k).isSome ↔ k ∈ odKeys d := by
  rcases h : odLookup d k with _ | v
  · simp [(odLookup_eq_none_iff d k).mp h]
  · have : k ∈ odKeys d := by
      by_contra hk
      rw [(odLookup_eq_none_iff d k).mpr hk] at h
      exact Option.noConfusion h
    simp [this]

theorem mem_of_odLookup_eq_some {α : Type} (d : List (String × α)) (k : String)
    (v : α) (h : odLookup d k = some v) : (k, v) ∈ d := by
  induction d with
  | nil => simp [odLookup] at h
  | cons p t ih =>
    obtain ⟨a, b⟩ := p
    by_cases hka : k = a
    · subst hka
      rw [odLookup, if_pos rfl] at h
      cases h
      exact List.mem_cons_self _ _
    · rw [odLookup, if_neg hka] at h
      exact List.mem_cons_of_mem _ (ih h)

theorem odLookup_odSet_self {α : Type} (d : List (String × α)) (k : String)
    (v : α) : odLookup (odSet d k v) k = some v := by
  induction d with
  | nil => simp [odSet, odLookup]
  | cons p t ih =>
    obtain ⟨a, b⟩ := p
    by_cases hka : k = a
    · subst hka
      simp [odSet, odLookup]
    · simp [odSet, odLookup, hka, ih]

theorem odLookup_odSet_ne {α : Type} (d : List (String × α)) (k k' : String)
    (v : α) (hne : k' ≠ k) : odLookup (odSet d k v) k' = odLookup d k' := by
  induction d with
  | nil => simp [odSet, odLookup, hne]
  | cons p t ih =>
    obtain ⟨a, b⟩ := p
    by_cases hka : k = a
    · subst hka
      simp [odSet, odLookup, hne]
    · by_cases hk'a : k' = a
      · subst hk'a
        simp [odSet, odLookup, hka]
      · simp [odSet, odLookup, hka, hk'a, ih]

theorem odKeys_odSet {α : Type} (d : List (String × α)) (k : String) (v : α) :
    odKeys (odSet d k v) =
      if k ∈ odKeys d then odKeys d else odKeys d ++ [k] := by
  induction d with
  | nil => simp [odSet, odKeys]
  | cons p t ih =>
    obtain ⟨a, b⟩ := p
    by_cases hka : k = a
    · subst hka
      simp [odSet, odKeys]
    · simp only [odSet, if_neg hka]
      by_cases ht : k ∈ odKeys t
      · have hc : k ∈ odKeys ((a, b) :: t) :=
          show k ∈ a :: odKeys t from List.mem_cons_of_mem a ht
        rw [if_pos hc]
        show a :: odKeys (odSet t k v) = a :: odKeys t
        rw [ih, if_pos ht]
      · have hc : k ∉ odKeys ((a, b) :: t) := by
          show k ∉ a :: odKeys t
          intro hmem
          rcases List.mem_cons.mp hmem with h | h
          · exact hka h
          · exact ht h
        rw [if_neg hc]
        show a :: odKeys (odSet t k v) = (a :: odKeys t) ++ [k]
        rw [List.cons_append, ih, if_neg ht]

theorem mem_odKeys_odSet {α : Type} (d : List (String × α)) (k k' : String)
    (v : α) : k' ∈ odKeys (odSet d k v) ↔ k' ∈ odKeys d ∨ k' = k := by
  rw [odKeys_odSet]
  by_cases h : k ∈ odKeys d
  · simp [h]
    intro hk'
    subst hk'
    exact h
  · simp [h]

theorem nodup_odKeys_odSet {α : Type} (d : List (String × α)) (k : String)
    (v : α) (hd : (odKeys d).Nodup) : (odKeys (odSet d k v)).Nodup := by
  rw [odKeys_odSet]
  by_cases h : k ∈ odKeys d
  · simpa [h] using hd
  · simp only [h, if_false]
    simpa [List.nodup_append] using ⟨hd, h⟩

theorem mem_odSet_elim {α : Type} (d : List (String × α)) (k : String) (v : α)
    (p : String × α) (hp : p ∈ odSet d k v) : p = (k, v) ∨ p ∈ d := by
  induction d with
  | nil => simpa [odSet] using hp
  | cons q t ih =>
    obtain ⟨a, b⟩ := q
    by_cases hka : k = a
    · subst hka
      rw [odSet, if_pos rfl] at hp
      rcases List.mem_cons.mp hp with rfl | h
      · exact Or.inl rfl
      · exact Or.inr (List.mem_cons_of_mem _ h)
    · rw [odSet, if_neg hka] at hp
      rcases List.mem_cons.mp hp with rfl | h
      · exact Or.inr (List.mem_cons_self _ _)
      · rcases ih h with h' | h'
        · exact Or.inl h'
        · exact Or.inr (List.mem_cons_of_mem _ h')

/-- The last value assigned to key `k` by a list of assignments, if any. -/
def lastVal {α : Type} : List (String × α) → String → Option α
  | [], _ => none
  | (k', v) :: t, k =>
      match lastVal t k with
      | some w => some w
      | none => if k = k' then some v else none

theorem odSetMany_nil {α : Type} (d : List (String × α)) :
    odSetMany d [] = d := rfl

theorem odSetMany_cons {α : Type} (d : List (String × α)) (k : String) (v : α)
    (items : List (String × α)) :
    odSetMany d ((k, v) :: items) = odSetMany (odSet d k v) items := rfl

theorem odSetMany_append {α : Type} (d : List (String × α))
    (a b : List (String × α)) :
    odSetMany d (a ++ b) = odSetMany (odSetMany d a) b :=
  List.foldl_append ..

/-- Assigning a list of pairs realizes last-writer-wins lookup. -/
theorem odLookup_odSetMany {α : Type} (items : List (String × α)) :
    ∀ (d : List (String × α)) (k : String),
      odLookup (odSetMany d items) k =
        match lastVal items k with
        | some w => some w
        | none => odLookup d k := by
  induction items with
  | nil => intro d k; rfl
  | cons p t ih =>
    intro d k
    obtain ⟨k', v⟩ := p
    rw [odSetMany_cons, ih (odSet d k' v) k]
    show _ = (match lastVal ((k', v) :: t) k with
      | some w => some w
      | none => odLookup d k)
    rw [lastVal]
    rcases h : lastVal t k with _ | w
    · by_cases hk : k = k'
      · subst hk
        simp [odLookup_odSet_self]
      · simp [hk, odLookup_odSet_ne d k' k v hk]
    · simp

theorem mem_odKeys_odSetMany_of_mem {α : Type} (items : List (String × α)) :
    ∀ (d : List (String × α)) (k : String), k ∈ odKeys d →
      k ∈ odKeys (odSetMany d items) := by
  induction items with
  | nil => intro d k hk; exact hk
  | cons p t ih =>
    intro d k hk
    obtain ⟨k', v⟩ := p
    rw [odSetMany_cons]
    exact ih _ k ((mem_odKeys_odSet d k' k v).mpr (Or.inl hk))

theorem mem_odKeys_odSetMany_of_item {α : Type} (items : List (String × α)) :
    ∀ (d : List (String × α)), ∀ p ∈ items, p.1 ∈ odKeys (odSetMany d items) := by
  induction items with
  | nil => intro d p hp; simp at hp
  | cons q t ih =>
    intro d p hp
    obtain ⟨k', v⟩ := q
    rcases List.mem_cons.mp hp with rfl | h
    · rw [odSetMany_cons]
      exact mem_odKeys_odSetMany_of_mem t _ k'
        ((mem_odKeys_odSet d k' k' v).mpr (Or.inr rfl))
    · rw [odSetMany_cons]
      exact ih _ p h

theorem odKeys_odSetMany_of_covered {α : Type} (items : List (String × α)) :
    ∀ (d : List (String × α)), (∀ p ∈ items, p.1 ∈ odKeys d) →
      odKeys (odSetMany d items) = odKeys d := by
  induction items with
  | nil => intro d _; rfl
  | cons q t ih =>
    intro d hcov
    obtain ⟨k', v⟩ := q
    have hk' : k' ∈ odKeys d := hcov (k', v) (List.mem_cons_self _ _)
    have hkeys : odKeys (odSet d k' v) = odKeys d := by
      rw [odKeys_odSet, if_pos hk']
    rw [odSetMany_cons, ih (odSet d k' v)
      (fun p hp => by rw [hkeys]; exact hcov p (List.mem_cons_of_mem _ hp)), hkeys]

theorem nodup_odKeys_odSetMany {α : Type} (items : List (String × α)) :
    ∀ (d : List (String × α)), (odKeys d).Nodup →
      (odKeys (odSetMany d items)).Nodup := by
  induction items with
  | nil => intro d hd; exact hd
  | cons q t ih =>
    intro d hd
    obtain ⟨k', v⟩ := q
    rw [odSetMany_cons]
    exact ih _ (nodup_odKeys_odSet d k' v hd)

theorem mem_odSetMany_elim {α : Type} (items : List (String × α)) :
    ∀ (d : List (String × α)), ∀ p ∈ odSetMany d items, p ∈ items ∨ p ∈ d := by
  induction items with
  | nil => intro d p hp; exact Or.inr hp
  | cons q t ih =>
    intro d p hp
    obtain ⟨k', v⟩ := q
    rw [odSetMany_cons] at hp
    rcases ih _ p hp with h | h
    · exact Or.inl (List.mem_cons_of_mem _ h)
    · rcases mem_odSet_elim d k' v p h with h' | h'
      · exact Or.inl (by rw [h']; exact List.mem_cons_self _ _)
      · exact Or.inr h'

/-- Ordered dictionaries with the same ordered keys (without duplicates)
and the same lookups are equal. -/
theorem odExt {α : Type} :
    ∀ (m₁ m₂ : List (String × α)), odKeys m₁ = odKeys m₂ →
      (odKeys m₁).Nodup → (∀ k, odLookup m₁ k = odLookup m₂ k) → m₁ = m₂ := by
  intro m₁
  induction m₁ with
  | nil =>
    intro m₂ hkeys _ _
    cases m₂ with
    | nil => rfl
    | cons p t => exact absurd hkeys (by simp [odKeys])
  | cons p t ih =>
    intro m₂ hkeys hnd hlook
    obtain ⟨a, b⟩ := p
    cases m₂ with
    | nil => exact absurd hkeys (by simp [odKeys])
    | cons q s =>
      obtain ⟨a', b'⟩ := q
      have hhead : a = a' := by
        have := hkeys
        simp [odKeys] at this
        exact this.1
      subst hhead
      have hval : b = b' := by
        have h1 := hlook a
        rw [odLookup, odLookup, if_pos rfl, if_pos rfl] at h1
        exact Option.some.inj h1
      subst hval
      have hknd : (odKeys t).Nodup ∧ a ∉ odKeys t := by
        have : (a :: odKeys t).Nodup := hnd
        exact ⟨List.Nodup.of_cons this, by
          intro hmem
          exact (List.nodup_cons.mp this).1 hmem⟩
      have hkeys' : odKeys t = odKeys s := by
        have : a :: odKeys t = a :: odKeys s := hkeys
        exact List.cons.inj this |>.2
      have hlook' : ∀ k, odLookup t k = odLookup s k := by
        intro k
        by_cases hk : k = a
        · subst hk
          have h1 : odLookup t k = none :=
            (odLookup_eq_none_iff t k).mpr hknd.2
          have h2 : odLookup s k = none :=
            (odLookup_eq_none_iff s k).mpr (by rw [← hkeys']; exact hknd.2)
          rw [h1, h2]
        · have h1 := hlook k
          rw [odLookup, odLookup, if_neg hk, if_neg hk] at h1
          exact h1
      rw [ih s hkeys' hknd.1 hlook']

/-- Re-running the same assignment sequence on its own result changes
nothing (the final value of every key is determined by the sequence). -/
theorem odSetMany_idem {α : Type} (d : List (String × α))
    (items : List (String × α)) (hd : (odKeys d).Nodup) :
    odSetMany (odSetMany d items) items = odSetMany d items := by
  apply odExt
  · exact odKeys_odSetMany_of_covered items _
      (fun p hp => mem_odKeys_odSetMany_of_item items d p hp)
  · exact nodup_odKeys_odSetMany items _ (nodup_odKeys_odSetMany items d hd)
  · intro k
    rw [odLookup_odSetMany items _ k, odLookup_odSetMany items d k]
    rcases h : lastVal items k with _ | w
    · simp only [h]
    · simp only [h]

/-! ## Row Reconciler lemmas -/

theorem odLookup_ensureKey_self (m : RowMap) (k : String) (seed : Row) :
    odLookup (ensureKey m k seed) k = some ((odLookup m k).getD seed) := by
  unfold ensureKey
  by_cases h : k ∈ odKeys m
  · rw [if_pos h]
    rcases hv : odLookup m k with _ | v
    · exact absurd ((odLookup_eq_none_iff m k).mp hv) (by simpa using h)
    · rfl
  · rw [if_neg h, odLookup_odSet_self,
      (odLookup_eq_none_iff m k).mpr h]
    rfl

theorem odLookup_ensureKey_ne (m : RowMap) (k k' : String) (seed : Row)
    (hne : k' ≠ k) : odLookup (ensureKey m k seed) k' = odLookup m k' := by
  unfold ensureKey
  by_cases h : k ∈ odKeys m
  · rw [if_pos h]
  · rw [if_neg h, odLookup_odSet_ne m k k' seed hne]

theorem odKeys_ensureKey (m : RowMap) (k : String) (seed : Row) :
    odKeys (ensureKey m k seed) =
      if k ∈ odKeys m then odKeys m else odKeys m ++ [k] := by
  unfold ensureKey
  by_cases h : k ∈ odKeys m
  · rw [if_pos h, if_pos h]
  · rw [if_neg h, if_neg h, odKeys_odSet, if_neg h]

theorem mem_odKeys_ensureKey (m : RowMap) (k : String) (seed : Row) :
    k ∈ odKeys (ensureKey m k seed) := by
  rw [odKeys_ensureKey]
  by_cases h : k ∈ odKeys m
  · rwa [if_pos h]
  · rw [if_neg h]
    exact List.mem_append_right _ (List.mem_singleton.mpr rfl)

/-- Lookup through one merged row: the merge key gets the updated
combined row (seeded if absent), every other key is untouched. -/
theorem mergeRow_lookup (m : RowMap) (hdr : Row) (dims chunk : List String)
    (row : Row) (k' : String) :
    odLookup (mergeRow m hdr dims chunk row) k' =
      if k' = dimKeyOf dims row then
        some (odSetMany ((odLookup m k').getD (seedRow hdr dims row))
          (updItems chunk row))
      else odLookup m k' := by
  unfold mergeRow
  by_cases hk : k' = dimKeyOf dims row
  · rw [if_pos hk, hk, odLookup_odSet_self, odLookup_ensureKey_self]
    rfl
  · rw [if_neg hk, odLookup_odSet_ne _ _ _ _ hk, odLookup_ensureKey_ne _ _ _ _ hk]

/-- The keys after one merged row: unchanged when the merge key is
already present, otherwise the merge key is appended. -/
theorem mergeRow_keys (m : RowMap) (hdr : Row) (dims chunk : List String)
    (row : Row) :
    odKeys (mergeRow m hdr dims chunk row) =
      if dimKeyOf dims row ∈ odKeys m then odKeys m
      else odKeys m ++ [dimKeyOf dims row] := by
  unfold mergeRow
  rw [odKeys_odSet, if_pos (mem_odKeys_ensureKey _ _ _), odKeys_ensureKey]

theorem mem_odKeys_mergeRow (m : RowMap) (hdr : Row) (dims chunk : List String)
    (row : Row) (k : String) (hk : k ∈ odKeys m) :
    k ∈ odKeys (mergeRow m hdr dims chunk row) := by
  rw [mergeRow_keys]
  by_cases h : dimKeyOf dims row ∈ odKeys m
  · rwa [if_pos h]
  · rw [if_neg h]
    exact List.mem_append_left _ hk

theorem dimKey_mem_odKeys_mergeRow (m : RowMap) (hdr : Row)
    (dims chunk : List String) (row : Row) :
    dimKeyOf dims row ∈ odKeys (mergeRow m hdr dims chunk row) := by
  rw [mergeRow_keys]
  by_cases h : dimKeyOf dims row ∈ odKeys m
  · rwa [if_pos h]
  · rw [if_neg h]
    exact List.mem_append_right _ (List.mem_singleton.mpr rfl)

theorem mergeRow_keys_of_mem (m : RowMap) (hdr : Row) (dims chunk : List String)
    (row : Row) (h : dimKeyOf dims row ∈ odKeys m) :
    odKeys (mergeRow m hdr dims chunk row) = odKeys m := by
  rw [mergeRow_keys, if_pos h]

theorem nodup_odKeys_mergeRow (m : RowMap) (hdr : Row) (dims chunk : List String)
    (row : Row) (hm : (odKeys m).Nodup) :
    (odKeys (mergeRow m hdr dims chunk row)).Nodup := by
  rw [mergeRow_keys]
  by_cases h : dimKeyOf dims row ∈ odKeys m
  · rwa [if_pos h]
  · rw [if_neg h]
    simpa [List.nodup_append] using ⟨hm, h⟩

theorem mergeRows_cons (m : RowMap) (hdr : Row) (dims chunk : List String)
    (r : Row) (rs : List Row) :
    mergeRows m hdr dims chunk (r :: rs) =
      mergeRows (mergeRow m hdr dims chunk r) hdr dims chunk rs := rfl

theorem mem_odKeys_mergeRows (hdr : Row) (dims chunk : List String)
    (rows : List Row) :
    ∀ (m : RowMap) (k : String), k ∈ odKeys m →
      k ∈ odKeys (mergeRows m hdr dims chunk rows) := by
  induction rows with
  | nil => intro m k hk; exact hk
  | cons r rs ih =>
    intro m k hk
    rw [mergeRows_cons]
    exact ih _ k (mem_odKeys_mergeRow m hdr dims chunk r k hk)

theorem dimKey_mem_odKeys_mergeRows (hdr : Row) (dims chunk : List String)
    (rows : List Row) :
    ∀ (m : RowMap), ∀ r ∈ rows,
      dimKeyOf dims r ∈ odKeys (mergeRows m hdr dims chunk rows) := by
  induction rows with
  | nil => intro m r hr; simp at hr
  | cons r' rs ih =>
    intro m r hr
    rcases List.mem_cons.mp hr with rfl | h
    · rw [mergeRows_cons]
      exact mem_odKeys_mergeRows hdr dims chunk rs _ _
        (dimKey_mem_odKeys_mergeRow m hdr dims chunk r)
    · rw [mergeRows_cons]
      exact ih _ r h

theorem mergeRows_keys_of_covered (hdr : Row) (dims chunk : List String)
    (rows : List Row) :
    ∀ (m : RowMap), (∀ r ∈ rows, dimKeyOf dims r ∈ odKeys m) →
      odKeys (mergeRows m hdr dims chunk rows) = odKeys m := by
  induction rows with
  | nil => intro m _; rfl
  | cons r rs ih =>
    intro m hcov
    have h1 : dimKeyOf dims r ∈ odKeys m := hcov r (List.mem_cons_self _ _)
    have hkeys : odKeys (mergeRow m hdr dims chunk r) = odKeys m :=
      mergeRow_keys_of_mem m hdr dims chunk r h1
    rw [mergeRows_cons, ih _ (fun r' hr' => by
      rw [hkeys]
      exact hcov r' (List.mem_cons_of_mem _ hr')), hkeys]

theorem nodup_odKeys_mergeRows (hdr : Row) (dims chunk : List String)
    (rows : List Row) :
    ∀ (m : RowMap), (odKeys m).Nodup →
      (odKeys (mergeRows m hdr dims chunk rows)).Nodup := by
  induction rows with
  | nil => intro m hm; exact hm
  | cons r rs ih =>
    intro m hm
    rw [mergeRows_cons]
    exact ih _ (nodup_odKeys_mergeRow m hdr dims chunk r hm)

/-- The unconditional per-key merge step: update (or seed) the combined
row with the metric fields of one raw row. -/
def mergeStep (hdr : Row) (dims chunk : List String) (c : Option Row)
    (row : Row) : Option Row :=
  some (odSetMany (c.getD (seedRow hdr dims row)) (updItems chunk row))

/-- The per-key view of merging one raw row: act only when the row's
merge key is `k`. -/
def mergeAt (hdr : Row) (dims chunk : List String) (k : String)
    (c : Option Row) (row : Row) : Option Row :=
  if dimKeyOf dims row = k then mergeStep hdr dims chunk c row else c

/-- Lookup through a whole chunk merge is the per-key fold. -/
theorem mergeRows_lookup (hdr : Row) (dims chunk : List String)
    (rows : List Row) :
    ∀ (m : RowMap) (k : String),
      odLookup (mergeRows m hdr dims chunk rows) k =
        rows.foldl (mergeAt hdr dims chunk k) (odLookup m k) := by
  induction rows with
  | nil => intro m k; rfl
  | cons r rs ih =>
    intro m k
    rw [mergeRows_cons, ih, List.foldl_cons]
    congr 1
    rw [mergeRow_lookup, mergeAt]
    by_cases h : dimKeyOf dims r = k
    · rw [if_pos h.symm, if_pos h, mergeStep]
    · rw [if_neg (fun hx => h hx.symm), if_neg h]

theorem foldl_mergeAt_filter (hdr : Row) (dims chunk : List String)
    (k : String) (rows : List Row) :
    ∀ (c : Option Row),
      rows.foldl (mergeAt hdr dims chunk k) c =
        (rows.filter (fun r => dimKeyOf dims r == k)).foldl
          (mergeStep hdr dims chunk) c := by
  induction rows with
  | nil => intro c; rfl
  | cons r rs ih =>
    intro c
    rw [List.foldl_cons, List.filter_cons]
    by_cases h : dimKeyOf dims r = k
    · rw [if_pos (by simpa using h), List.foldl_cons, mergeAt, if_pos h, ih]
    · rw [if_neg (by simpa using h), mergeAt, if_neg h, ih]

theorem foldl_mergeStep_some (hdr : Row) (dims chunk : List String)
    (rs : List Row) :
    ∀ (d : Row), rs.foldl (mergeStep hdr dims chunk) (some d) =
      some (rs.foldl (fun d' r => odSetMany d' (updItems chunk r)) d) := by
  induction rs with
  | nil => intro d; rfl
  | cons r rs' ih =>
    intro d
    rw [List.foldl_cons, List.foldl_cons]
    exact ih (odSetMany d (updItems chunk r))

theorem foldl_odSetMany_flatten (chunk : List String) (rs : List Row) :
    ∀ (d : Row), rs.foldl (fun d' r => odSetMany d' (updItems chunk r)) d =
      odSetMany d ((rs.map (updItems chunk)).flatten) := by
  induction rs with
  | nil => intro d; rfl
  | cons r rs' ih =>
    intro d
    rw [List.foldl_cons, ih (odSetMany d (updItems chunk r)),
      List.map_cons, List.flatten_cons, odSetMany_append]

/-- A seeded combined row has no duplicate keys. -/
theorem nodup_odKeys_seedRow (hdr : Row) (dims : List String) (row : Row)
    (hh : (odKeys hdr).Nodup) : (odKeys (seedRow hdr dims row)).Nodup :=
  nodup_odKeys_odSetMany _ hdr hh

/-- Re-running the per-key fold of one chunk's rows on its own result is
the identity. -/
theorem foldl_mergeAt_idem (hdr : Row) (dims chunk : List String)
    (k : String) (rows : List Row) (c : Option Row)
    (hc : ∀ d, c = some d → (odKeys d).Nodup) (hh : (odKeys hdr).Nodup) :
    rows.foldl (mergeAt hdr dims chunk k)
      (rows.foldl (mergeAt hdr dims chunk k) c) =
      rows.foldl (mergeAt hdr dims chunk k) c := by
  rw [foldl_mergeAt_filter, foldl_mergeAt_filter]
  rcases hrs : rows.filter (fun r => dimKeyOf dims r == k) with _ | ⟨r, rs'⟩
  · rfl
  · have hb : ∀ b : Row, (odKeys b).Nodup →
        (r :: rs').foldl (mergeStep hdr dims chunk)
          ((r :: rs').foldl (mergeStep hdr dims chunk) c) =
          (r :: rs').foldl (mergeStep hdr dims chunk) c → True := fun _ _ _ => trivial
    clear hb
    have hbase : (odKeys (c.getD (seedRow hdr dims r))).Nodup := by
      rcases c with _ | d
      · exact nodup_odKeys_seedRow hdr dims r hh
      · exact hc d rfl
    rw [List.foldl_cons, List.foldl_cons]
    show (r :: rs').foldl (mergeStep hdr dims chunk)
        (rs'.foldl (mergeStep hdr dims chunk) (mergeStep hdr dims chunk c r)) = _
    rw [mergeStep, foldl_mergeStep_some, foldl_odSetMany_flatten,
      List.foldl_cons]
    set b := c.getD (seedRow hdr dims r) with hbdef
    set L' := (rs'.map (updItems chunk)).flatten with hL'
    rw [show mergeStep hdr dims chunk
        (some (odSetMany (odSetMany b (updItems chunk r)) L')) r =
        some (odSetMany (odSetMany (odSetMany b (updItems chunk r)) L')
          (updItems chunk r)) from rfl]
    rw [foldl_mergeStep_some, foldl_odSetMany_flatten]
    rw [← hL', ← odSetMany_append, ← odSetMany_append, ← odSetMany_append]
    rw [show updItems chunk r ++ (L' ++ (updItems chunk r ++ L')) =
      (updItems chunk r ++ L') ++ (updItems chunk r ++ L') from by
        rw [List.append_assoc]]
    rw [odSetMany_append, odSetMany_idem b (updItems chunk r ++ L') hbase,
      odSetMany_append]

/-- Every combined row stored by one merged raw row has duplicate-free
keys (given the same invariant on the incoming map and the header). -/
theorem mergeRow_values_nodup (m : RowMap) (hdr : Row)
    (dims chunk : List String) (row : Row)
    (hv : ∀ p ∈ m, (odKeys p.2).Nodup) (hh : (odKeys hdr).Nodup) :
    ∀ p ∈ mergeRow m hdr dims chunk row, (odKeys p.2).Nodup := by
  intro p hp
  have hval : (odKeys (odSetMany
      ((odLookup (ensureKey m (dimKeyOf dims row) (seedRow hdr dims row))
        (dimKeyOf dims row)).getD [])
      (updItems chunk row))).Nodup := by
    rw [odLookup_ensureKey_self]
    simp only [Option.getD_some]
    rcases hlook : odLookup m (dimKeyOf dims row) with _ | d
    · simp only [hlook, Option.getD_none]
      exact nodup_odKeys_odSetMany _ _ (nodup_odKeys_seedRow hdr dims row hh)
    · simp only [hlook, Option.getD_some]
      exact nodup_odKeys_odSetMany _ _
        (hv _ (mem_of_odLookup_eq_some m _ d hlook))
  rcases mem_odSet_elim _ _ _ p hp with rfl | hp'
  · exact hval
  · unfold ensureKey at hp'
    by_cases hmem : dimKeyOf dims row ∈ odKeys m
    · rw [if_pos hmem] at hp'
      exact hv p hp'
    · rw [if_neg hmem] at hp'
      rcases mem_odSet_elim _ _ _ p hp' with rfl | hp''
      · exact nodup_odKeys_seedRow hdr dims row hh
      · exact hv p hp''

theorem mergeRows_values_nodup (hdr : Row) (dims chunk : List String)
    (rows : List Row) :
    ∀ (m : RowMap), (∀ p ∈ m, (odKeys p.2).Nodup) → (odKeys hdr).Nodup →
      ∀ p ∈ mergeRows m hdr dims chunk rows, (odKeys p.2).Nodup := by
  induction rows with
  | nil => intro m hv _ p hp; exact hv p hp
  | cons r rs ih =>
    intro m hv hh p hp
    rw [mergeRows_cons] at hp
    exact ih _ (mergeRow_values_nodup m hdr dims chunk r hv hh) hh p hp

/-- Assignments never delete fields. -/
theorem odLookup_odSetMany_isSome {α : Type} (d : List (String × α))
    (items : List (String × α)) (f : String)
    (h : (odLookup d f).isSome) : (odLookup (odSetMany d items) f).isSome := by
  rw [odLookup_odSetMany]
  rcases hl : lastVal items f with _ | w
  · simpa using h
  · simp

/-- The per-key fold never deletes a combined row nor any of its fields. -/
theorem foldl_mergeAt_preserves (hdr : Row) (dims chunk : List String)
    (k : String) (rows : List Row) :
    ∀ (c : Option Row) (d : Row), c = some d →
      ∃ d', rows.foldl (mergeAt hdr dims chunk k) c = some d' ∧
        ∀ f, (odLookup d f).isSome → (odLookup d' f).isSome := by
  induction rows with
  | nil =>
    intro c d hc
    exact ⟨d, hc, fun f hf => hf⟩
  | cons r rs ih =>
    intro c d hc
    rw [List.foldl_cons]
    by_cases h : dimKeyOf dims r = k
    · have hstep : mergeAt hdr dims chunk k c r =
          some (odSetMany d (updItems chunk r)) := by
        rw [mergeAt, if_pos h, mergeStep, hc]
        rfl
      obtain ⟨d', hfold, hmono⟩ := ih _ (odSetMany d (updItems chunk r)) hstep
      exact ⟨d', hfold, fun f hf =>
        hmono f (odLookup_odSetMany_isSome d (updItems chunk r) f hf)⟩
    · have hstep : mergeAt hdr dims chunk k c r = c := by
        rw [mergeAt, if_neg h]
      rw [hstep]
      exact ih c d hc

/-- C9. The Row Reconciler merge is idempotent: for every existing map,
header, dimension list and chunk-row sequence (with the dictionary
invariant that keys are duplicate-free, as Python dicts guarantee),
merging the same chunk rows a second time leaves the map unchanged; and
merging never removes a row or a metric field that was already present. -/
theorem merge_idempotent (m : RowMap) (hdr : Row) (dims chunk : List String)
    (rows : List Row) (hm : (odKeys m).Nodup)
    (hv : ∀ p ∈ m, (odKeys p.2).Nodup) (hh : (odKeys hdr).Nodup) :
    mergeRows (mergeRows m hdr dims chunk rows) hdr dims chunk rows =
      mergeRows m hdr dims chunk rows ∧
    ∀ k d, odLookup m k = some d →
      ∃ d', odLookup (mergeRows m hdr dims chunk rows) k = some d' ∧
        ∀ f, (odLookup d f).isSome → (odLookup d' f).isSome := by
  constructor
  · apply odExt
    · exact mergeRows_keys_of_covered hdr dims chunk rows _
        (fun r hr => dimKey_mem_odKeys_mergeRows hdr dims chunk rows m r hr)
    · exact nodup_odKeys_mergeRows hdr dims chunk rows _
        (nodup_odKeys_mergeRows hdr dims chunk rows m hm)
    · intro k
      rw [mergeRows_lookup, mergeRows_lookup]
      exact foldl_mergeAt_idem hdr dims chunk k rows (odLookup m k)
        (fun d hd => hv (k, d) (mem_of_odLookup_eq_some m k d hd)) hh
  · intro k d hd
    rw [mergeRows_lookup]
    exact foldl_mergeAt_preserves hdr dims chunk k rows (odLookup m k) d hd

/-- Witness for `merge_idempotent` on a concrete map, header and rows. -/
theorem merge_idempotent_witness :
    mergeRows (mergeRows [("k1", [("country", "US"), ("sessions", "3")])]
        (headerDict "Acme" "123" "q1") ["country"] ["sessions", "newUsers"]
        [[("country", "US"), ("sessions", "7"), ("newUsers", "2")]])
      (headerDict "Acme" "123" "q1") ["country"] ["sessions", "newUsers"]
      [[("country", "US"), ("sessions", "7"), ("newUsers", "2")]] =
      mergeRows [("k1", [("country", "US"), ("sessions", "3")])]
        (headerDict "Acme" "123" "q1") ["country"] ["sessions", "newUsers"]
        [[("country", "US"), ("sessions", "7"), ("newUsers", "2")]] ∧
    ∀ k d, odLookup [("k1", [("country", "US"), ("sessions", "3")])] k = some d →
      ∃ d', odLookup (mergeRows [("k1", [("country", "US"), ("sessions", "3")])]
          (headerDict "Acme" "123" "q1") ["country"] ["sessions", "newUsers"]
          [[("country", "US"), ("sessions", "7"), ("newUsers", "2")]]) k = some d' ∧
        ∀ f, (odLookup d f).isSome → (odLookup d' f).isSome :=
  merge_idempotent [("k1", [("country", "US"), ("sessions", "3")])]
    (headerDict "Acme" "123" "q1") ["country"] ["sessions", "newUsers"]
    [[("country", "US"), ("sessions", "7"), ("newUsers", "2")]]
    (by decide) (by decide) (by decide)

/-! ## Batch Orchestrator (`app/batch.py`) -/

/-- Constant `REQUEST_DELAY_SECONDS = 1.0` from `app/batch.py` (the float values
1.0 and 2.0 are exact, so a rational models them faithfully). -/
def REQUEST_DELAY_SECONDS : ℚ := 1

/-- One brand entry of `batch_config.json`. -/
structure Brand where
  name : String
  property_id : String
deriving DecidableEq

/-- One date-range entry of `batch_config.json`. -/
structure DateRangeCfg where
  label : String
  start_date : String
  end_date : String
deriving DecidableEq

/-- The optional `dimension_filter` of a report entry. -/
structure DimFilter where
  field : String
  match_type : String
  value : String
deriving DecidableEq

/-- One report entry of `batch_config.json` (`dimensions` defaults to
`[]` via `report.get("dimensions", [])`). -/
structure ReportCfg where
  name : String
  dimensions : List String
  metrics : List String
  dimension_filter : Option DimFilter
deriving DecidableEq

/-- The parsed `batch_config.json`. -/
structure BatchConfig where
  brands : List Brand
  date_ranges : List DateRangeCfg
  reports : List ReportCfg
deriving DecidableEq

/-- The Query Executor oracle abstracting `run_report`: it receives
exactly the call's arguments — property id, start and end date, dimension
names, the metric chunk and the optional filter — and returns either the
normalized rows or the rendering `f"{type(exc).__name__}: {exc}"` of a
raised exception. -/
def Query : Type :=
  String → String → String → List String → List String → Option DimFilter →
    Except String (List Row)

/-- Observable effects of a run, in chronological order: an executor call
(with its outcome), a `time.sleep`, a CSV header write, a CSV row write,
and closing a report's CSV file. -/
inductive Event where
  | query (report brand period : String) (metrics : List String) (ok : Bool)
  | sleep (seconds : ℚ)
  | openFile (report : String) (fieldnames : List String)
  | writeRow (report : String) (row : Row)
  | closeFile (report : String)
deriving DecidableEq

/-- The orchestrator's run-scoped state: `total_queries`, `errors`, and
the chronological effect trace. -/
structure RunState where
  total_queries : Nat
  errors : List String
  trace : List Event
deriving DecidableEq

/-- The executor call made for one chunk of one cell (arguments exactly
as at the `run_report(...)` call site in `run_batch`). -/
def callQ (q : Query) (rep : ReportCfg) (b : Brand) (dr : DateRangeCfg)
    (chunk : List String) : Except String (List Row) :=
  q b.property_id dr.start_date dr.end_date rep.dimensions chunk
    rep.dimension_filter

/-- Format `f"…"` of an error record — brand name, period label and report
name joined with `" | "`, then the exception rendering `e`. -/
def errMsg (b : Brand) (dr : DateRangeCfg) (rep : ReportCfg) (e : String) :
    String :=
  b.name ++ " | " ++ dr.label ++ " | " ++ rep.name ++ ": " ++ e

/-- One iteration of `for chunk in metric_chunks` in `run_batch`: on
success count the query, fold the rows into the combined map and sleep
the base delay; on failure append the error record and sleep twice the
base delay. -/
def processChunk (q : Query) (rep : ReportCfg) (b : Brand) (dr : DateRangeCfg)
    (acc : RunState × RowMap) (chunk : List String) : RunState × RowMap :=
  match callQ q rep b dr chunk with
  | Except.ok rows =>
      ({ acc.1 with
          total_queries := acc.1.total_queries + 1,
          trace := acc.1.trace ++
            [Event.query rep.name b.name dr.label chunk true,
             Event.sleep REQUEST_DELAY_SECONDS] },
        mergeRows acc.2 (headerDict b.name b.property_id dr.label)
          rep.dimensions chunk rows)
  | Except.error e =>
      ({ acc.1 with
          errors := acc.1.errors ++ [errMsg b dr rep e],
          trace := acc.1.trace ++
            [Event.query rep.name b.name dr.label chunk false,
             Event.sleep (REQUEST_DELAY_SECONDS * 2)] },
        acc.2)

/-- Lines 150–155 of `run_batch`: for a zero-dimension report whose cell
collected no rows, synthesize the single `"__total__"` header-only row. -/
def synthTotal (combined : RowMap) (rep : ReportCfg) (b : Brand)
    (dr : DateRangeCfg) : RowMap :=
  if combined.isEmpty && rep.dimensions.isEmpty then
    odSet combined "__total__" (headerDict b.name b.property_id dr.label)
  else combined

/-- One `(brand, date_range)` cell of a report: run every chunk against a
fresh empty map, synthesize the header-only row if needed, then write all
combined rows (in insertion order) to the report's CSV. -/
def processCell (q : Query) (rep : ReportCfg) (chunks : List (List String))
    (b : Brand) (dr : DateRangeCfg) (st : RunState) : RunState :=
  let p := chunks.foldl (processChunk q rep b dr) (st, ([] : RowMap))
  let combined := synthTotal p.2 rep b dr
  { p.1 with
      trace := p.1.trace ++ combined.map (fun kv => Event.writeRow rep.name kv.2) }

/-- The CSV header `["brand_name", "property_id", "period"] + dimensions + all_metrics`. -/
def fieldnames (rep : ReportCfg) : List String :=
  ["brand_name", "property_id", "period"] ++ rep.dimensions ++ rep.metrics

/-- The metric chunks of a report: `chunk_metrics(all_metrics)` with the
default maximum size 10 (always `some`; the default is unreachable). -/
def metricChunksOf (rep : ReportCfg) : List (List String) :=
  (chunk_metrics rep.metrics MAX_METRICS_PER_REQUEST).getD []

/-- Append the closing of a report's CSV file to the trace. -/
def closeReport (st : RunState) (rep : ReportCfg) : RunState :=
  { st with trace := st.trace ++ [Event.closeFile rep.name] }

/-- One report of `run_batch`: open its CSV (header write), run every
brand × date-range cell, close the file. -/
def processReport (q : Query) (cfg : BatchConfig) (st : RunState)
    (rep : ReportCfg) : RunState :=
  closeReport
    (cfg.brands.foldl
      (fun s b => cfg.date_ranges.foldl
        (fun s' dr => processCell q rep (metricChunksOf rep) b dr s') s)
      { st with trace := st.trace ++ [Event.openFile rep.name (fieldnames rep)] })
    rep

/-- Embedding of `run_batch`: iterate every report over every brand and
date range, starting from zero queries, no errors and an empty trace. -/
def run_batch (q : Query) (cfg : BatchConfig) : RunState :=
  cfg.reports.foldl (processReport q cfg) ⟨0, [], []⟩

/-- Embedding of the validation half of `load_batch_config`: drop brands
whose `property_id` is the `"FILL_IN"` placeholder and exit with code 1
when none remain.  (Path resolution and JSON reading are I/O outside the
core.) -/
def load_batch_config (cfg : BatchConfig) : Except Nat BatchConfig :=
  let active := cfg.brands.filter (fun b => b.property_id ≠ "FILL_IN")
  if active.isEmpty then Except.error 1
  else Except.ok { cfg with brands := active }

/-! ## Canonical form of a run -/

/-- Did an executor call succeed? -/
def isOkE (r : Except String (List Row)) : Bool :=
  match r with
  | Except.ok _ => true
  | Except.error _ => false

/-- The rows of an executor call, empty on failure. -/
def rowsOf (r : Except String (List Row)) : List Row :=
  match r with
  | Except.ok rows => rows
  | Except.error _ => []

/-- The two trace events of one chunk iteration: the executor call and
the rate-controller suspension that follows it. -/
def chunkEvents (q : Query) (rep : ReportCfg) (b : Brand) (dr : DateRangeCfg)
    (chunk : List String) : List Event :=
  match callQ q rep b dr chunk with
  | Except.ok _ =>
      [Event.query rep.name b.name dr.label chunk true,
       Event.sleep REQUEST_DELAY_SECONDS]
  | Except.error _ =>
      [Event.query rep.name b.name dr.label chunk false,
       Event.sleep (REQUEST_DELAY_SECONDS * 2)]

/-- The error record of one chunk iteration, if its call failed. -/
def chunkError (q : Query) (rep : ReportCfg) (b : Brand) (dr : DateRangeCfg)
    (chunk : List String) : Option String :=
  match callQ q rep b dr chunk with
  | Except.ok _ => none
  | Except.error e => some (errMsg b dr rep e)

/-- The combined-map effect of one chunk iteration: merge on success,
identity on failure. -/
def mergeChunk (q : Query) (rep : ReportCfg) (b : Brand) (dr : DateRangeCfg)
    (m : RowMap) (chunk : List String) : RowMap :=
  match callQ q rep b dr chunk with
  | Except.ok rows =>
      mergeRows m (headerDict b.name b.property_id dr.label)
        rep.dimensions chunk rows
  | Except.error _ => m

/-- The finished combined-row map of one cell. -/
def cellMap (q : Query) (rep : ReportCfg) (chunks : List (List String))
    (b : Brand) (dr : DateRangeCfg) : RowMap :=
  synthTotal (chunks.foldl (mergeChunk q rep b dr) []) rep b dr

/-- The CSV rows one cell hands to the sink, as write events. -/
def cellWrites (q : Query) (rep : ReportCfg) (chunks : List (List String))
    (b : Brand) (dr : DateRangeCfg) : List Event :=
  (cellMap q rep chunks b dr).map (fun kv => Event.writeRow rep.name kv.2)

/-- The number of successful executor calls in one cell. -/
def cellQueryCount (q : Query) (rep : ReportCfg) (chunks : List (List String))
    (b : Brand) (dr : DateRangeCfg) : Nat :=
  chunks.countP (fun c => isOkE (callQ q rep b dr c))

/-- The error records appended by one cell, in order. -/
def cellErrors (q : Query) (rep : ReportCfg) (chunks : List (List String))
    (b : Brand) (dr : DateRangeCfg) : List String :=
  chunks.filterMap (chunkError q rep b dr)

/-- The trace of one cell: each chunk's call-and-sleep pair, then the
cell's row writes. -/
def cellEvents (q : Query) (rep : ReportCfg) (chunks : List (List String))
    (b : Brand) (dr : DateRangeCfg) : List Event :=
  (chunks.map (chunkEvents q rep b dr)).flatten ++ cellWrites q rep chunks b dr

/-- All cell traces of one report, in brand-major order. -/
def reportCellEvents (q : Query) (cfg : BatchConfig) (rep : ReportCfg) :
    List Event :=
  (cfg.brands.map (fun b =>
    (cfg.date_ranges.map (fun dr =>
      cellEvents q rep (metricChunksOf rep) b dr)).flatten)).flatten

/-- The full trace of one report: header write, all cells, file close. -/
def reportEvents (q : Query) (cfg : BatchConfig) (rep : ReportCfg) :
    List Event :=
  Event.openFile rep.name (fieldnames rep) ::
    (reportCellEvents q cfg rep ++ [Event.closeFile rep.name])

/-- All error records of one report, in order. -/
def reportErrors (q : Query) (cfg : BatchConfig) (rep : ReportCfg) :
    List String :=
  (cfg.brands.map (fun b =>
    (cfg.date_ranges.map (fun dr =>
      cellErrors q rep (metricChunksOf rep) b dr)).flatten)).flatten

/-- The number of successful executor calls of one report. -/
def reportCount (q : Query) (cfg : BatchConfig) (rep : ReportCfg) : Nat :=
  (cfg.brands.map (fun b =>
    (cfg.date_ranges.map (fun dr =>
      cellQueryCount q rep (metricChunksOf rep) b dr)).sum)).sum

/-- The full chronological trace of a run. -/
def runTrace (q : Query) (cfg : BatchConfig) : List Event :=
  (cfg.reports.map (reportEvents q cfg)).flatten

/-- All error records of a run, in order. -/
def runErrors (q : Query) (cfg : BatchConfig) : List String :=
  (cfg.reports.map (reportErrors q cfg)).flatten

/-- The `total_queries` counter of a run. -/
def runCount (q : Query) (cfg : BatchConfig) : Nat :=
  (cfg.reports.map (reportCount q cfg)).sum

theorem processChunk_eq (q : Query) (rep : ReportCfg) (b : Brand)
    (dr : DateRangeCfg) (st : RunState) (m : RowMap) (chunk : List String) :
    processChunk q rep b dr (st, m) chunk =
      (⟨st.total_queries + (if isOkE (callQ q rep b dr chunk) then 1 else 0),
        st.errors ++ (chunkError q rep b dr chunk).toList,
        st.trace ++ chunkEvents q rep b dr chunk⟩,
       mergeChunk q rep b dr m chunk) := by
  rcases hc : callQ q rep b dr chunk with e | rows <;>
    simp [processChunk, chunkError, chunkEvents, isOkE, mergeChunk, hc]

theorem foldl_processChunk (q : Query) (rep : ReportCfg) (b : Brand)
    (dr : DateRangeCfg) (chunks : List (List String)) :
    ∀ (st : RunState) (m : RowMap),
      chunks.foldl (processChunk q rep b dr) (st, m) =
        (⟨st.total_queries + chunks.countP (fun c => isOkE (callQ q rep b dr c)),
          st.errors ++ chunks.filterMap (chunkError q rep b dr),
          st.trace ++ (chunks.map (chunkEvents q rep b dr)).flatten⟩,
         chunks.foldl (mergeChunk q rep b dr) m) := by
  induction chunks with
  | nil => intro st m; simp
  | cons c cs ih =>
    intro st m
    rw [List.foldl_cons, processChunk_eq, ih, List.foldl_cons]
    refine congrArg (fun s => (s, _)) ?_
    rcases hc : callQ q rep b dr c with e | rows <;>
      simp [List.countP_cons, chunkError, isOkE, hc, List.append_assoc,
        Nat.add_comm, Nat.add_assoc, Nat.add_left_comm]

theorem processCell_eq (q : Query) (rep : ReportCfg)
    (chunks : List (List String)) (b : Brand) (dr : DateRangeCfg)
    (st : RunState) :
    processCell q rep chunks b dr st =
      ⟨st.total_queries + cellQueryCount q rep chunks b dr,
       st.errors ++ cellErrors q rep chunks b dr,
       st.trace ++ cellEvents q rep chunks b dr⟩ := by
  unfold processCell cellEvents cellWrites cellMap cellQueryCount cellErrors
  rw [foldl_processChunk]
  simp [List.append_assoc]

/-- Folding a state transformer that adds a count and appends error and
trace segments yields the sums and concatenations. -/
theorem foldl_runstate {α : Type} (f : RunState → α → RunState) (g : α → Nat)
    (h : α → List String) (t : α → List Event)
    (hf : ∀ st a, f st a =
      ⟨st.total_queries + g a, st.errors ++ h a, st.trace ++ t a⟩) :
    ∀ (l : List α) (st : RunState),
      l.foldl f st = ⟨st.total_queries + (l.map g).sum,
        st.errors ++ (l.map h).flatten, st.trace ++ (l.map t).flatten⟩ := by
  intro l
  induction l with
  | nil => intro st; simp
  | cons a as ih =>
    intro st
    rw [List.foldl_cons, hf, ih]
    simp [List.append_assoc, Nat.add_assoc]

theorem processReport_eq (q : Query) (cfg : BatchConfig) (st : RunState)
    (rep : ReportCfg) :
    processReport q cfg st rep =
      ⟨st.total_queries + reportCount q cfg rep,
       st.errors ++ reportErrors q cfg rep,
       st.trace ++ reportEvents q cfg rep⟩ := by
  unfold processReport closeReport reportEvents reportCellEvents reportErrors
    reportCount
  rw [foldl_runstate
    (fun s b => cfg.date_ranges.foldl
      (fun s' dr => processCell q rep (metricChunksOf rep) b dr s') s)
    (fun b => (cfg.date_ranges.map (fun dr =>
      cellQueryCount q rep (metricChunksOf rep) b dr)).sum)
    (fun b => (cfg.date_ranges.map (fun dr =>
      cellErrors q rep (metricChunksOf rep) b dr)).flatten)
    (fun b => (cfg.date_ranges.map (fun dr =>
      cellEvents q rep (metricChunksOf rep) b dr)).flatten)
    (fun s b => foldl_runstate
      (fun s' dr => processCell q rep (metricChunksOf rep) b dr s')
      (fun dr => cellQueryCount q rep (metricChunksOf rep) b dr)
      (fun dr => cellErrors q rep (metricChunksOf rep) b dr)
      (fun dr => cellEvents q rep (metricChunksOf rep) b dr)
      (fun s' dr => processCell_eq q rep (metricChunksOf rep) b dr s')
      cfg.date_ranges s)]
  simp [List.append_assoc]

/-- Canonical form of `run_batch`: its counter, error list and trace are
the per-report concatenations. -/
theorem run_batch_eq (q : Query) (cfg : BatchConfig) :
    run_batch q cfg = ⟨runCount q cfg, runErrors q cfg, runTrace q cfg⟩ := by
  unfold run_batch runCount runErrors runTrace
  rw [foldl_runstate (processReport q cfg) (reportCount q cfg)
    (reportErrors q cfg) (reportEvents q cfg)
    (fun st rep => processReport_eq q cfg st rep)]
  simp

/-! ## Attempt-level view of a run -/

/-- Every `(report, brand, date range, chunk)` executor attempt of a run,
in iteration order. -/
def attempts (cfg : BatchConfig) :
    List (ReportCfg × Brand × DateRangeCfg × List String) :=
  (cfg.reports.map (fun rep =>
    (cfg.brands.map (fun b =>
      (cfg.date_ranges.map (fun dr =>
        (metricChunksOf rep).map (fun c => (rep, b, dr, c)))).flatten)).flatten)).flatten

/-- Did an attempt's executor call succeed? -/
def attemptOk (q : Query) (a : ReportCfg × Brand × DateRangeCfg × List String) :
    Bool :=
  isOkE (callQ q a.1 a.2.1 a.2.2.1 a.2.2.2)

/-- The error record of an attempt, if its call failed. -/
def attemptError (q : Query)
    (a : ReportCfg × Brand × DateRangeCfg × List String) : Option String :=
  chunkError q a.1 a.2.1 a.2.2.1 a.2.2.2

/-- The query event of an attempt. -/
def attemptEvent (q : Query)
    (a : ReportCfg × Brand × DateRangeCfg × List String) : Event :=
  Event.query a.1.name a.2.1.name a.2.2.1.label a.2.2.2 (attemptOk q a)

/-- Is an event an executor call? -/
def isQueryE : Event → Bool
  | Event.query _ _ _ _ _ => true
  | _ => false

/-- Is an event a rate-controller suspension? -/
def isSleepE : Event → Bool
  | Event.sleep _ => true
  | _ => false

/-- Is an event a CSV row write (a row reaching the sink)? -/
def isWriteE : Event → Bool
  | Event.writeRow _ _ => true
  | _ => false

/-- The executor-call events of a trace, in order. -/
def queryEvents (t : List Event) : List Event :=
  t.filter isQueryE

/-- The row-write events of a trace, in order. -/
def writeEvents (t : List Event) : List Event :=
  t.filter isWriteE

theorem filter_flatten {α : Type} (p : α → Bool) (ls : List (List α)) :
    ls.flatten.filter p = (ls.map (fun l => l.filter p)).flatten := by
  induction ls with
  | nil => rfl
  | cons l ls ih =>
    rw [List.flatten_cons, List.filter_append, ih, List.map_cons,
      List.flatten_cons]

theorem filterMap_flatten {α β : Type} (f : α → Option β) (ls : List (List α)) :
    ls.flatten.filterMap f = (ls.map (fun l => l.filterMap f)).flatten := by
  induction ls with
  | nil => rfl
  | cons l ls ih =>
    rw [List.flatten_cons, List.filterMap_append, ih, List.map_cons,
      List.flatten_cons]

theorem countP_flatten {α : Type} (p : α → Bool) (ls : List (List α)) :
    ls.flatten.countP p = (ls.map (fun l => l.countP p)).sum := by
  induction ls with
  | nil => rfl
  | cons l ls ih =>
    rw [List.flatten_cons, List.countP_append, ih, List.map_cons, List.sum_cons]

theorem flatten_map_singleton {α β : Type} (f : α → β) (l : List α) :
    (l.map (fun x => [f x])).flatten = l.map f := by
  induction l with
  | nil => rfl
  | cons a as ih =>
    rw [List.map_cons, List.flatten_cons, List.map_cons, ih]
    rfl

theorem chunkEvents_filter_query (q : Query) (rep : ReportCfg) (b : Brand)
    (dr : DateRangeCfg) (c : List String) :
    (chunkEvents q rep b dr c).filter isQueryE =
      [Event.query rep.name b.name dr.label c (isOkE (callQ q rep b dr c))] := by
  rcases hc : callQ q rep b dr c with e | rows <;>
    simp [chunkEvents, isOkE, isQueryE, hc, List.filter]

theorem chunkEvents_filter_write (q : Query) (rep : ReportCfg) (b : Brand)
    (dr : DateRangeCfg) (c : List String) :
    (chunkEvents q rep b dr c).filter isWriteE = [] := by
  rcases hc : callQ q rep b dr c with e | rows <;>
    simp [chunkEvents, isWriteE, hc, List.filter]

theorem filter_map_const_false {α : Type} (p : Event → Bool) (f : α → Event)
    (hf : ∀ a, p (f a) = false) (l : List α) : (l.map f).filter p = [] := by
  induction l with
  | nil => rfl
  | cons a as ih =>
    rw [List.map_cons, List.filter_cons_of_neg (by simp [hf a]), ih]

theorem filter_map_const_true {α : Type} (p : Event → Bool) (f : α → Event)
    (hf : ∀ a, p (f a) = true) (l : List α) : (l.map f).filter p = l.map f := by
  induction l with
  | nil => rfl
  | cons a as ih =>
    rw [List.map_cons, List.filter_cons_of_pos (by simp [hf a]), ih]

theorem map_congr_fun {α β : Type} (f g : α → β) (l : List α)
    (h : ∀ a, f a = g a) : l.map f = l.map g := by
  induction l with
  | nil => rfl
  | cons a as ih => rw [List.map_cons, List.map_cons, h a, ih]

theorem cellWrites_filter_query (q : Query) (rep : ReportCfg)
    (chunks : List (List String)) (b : Brand) (dr : DateRangeCfg) :
    (cellWrites q rep chunks b dr).filter isQueryE = [] := by
  unfold cellWrites
  apply filter_map_const_false
  intro a
  rfl

theorem cellWrites_filter_write (q : Query) (rep : ReportCfg)
    (chunks : List (List String)) (b : Brand) (dr : DateRangeCfg) :
    (cellWrites q rep chunks b dr).filter isWriteE =
      cellWrites q rep chunks b dr := by
  unfold cellWrites
  apply filter_map_const_true
  intro a
  rfl

/-- The query events of a run are exactly one per attempt, in order. -/
theorem run_query_events (q : Query) (cfg : BatchConfig) :
    queryEvents (run_batch q cfg).trace = (attempts cfg).map (attemptEvent q) := by
  rw [run_batch_eq]
  show (runTrace q cfg).filter isQueryE = _
  unfold runTrace reportEvents reportCellEvents cellEvents attempts
  rw [filter_flatten, List.map_map, List.map_flatten, List.map_map]
  refine congrArg List.flatten (map_congr_fun _ _ _ ?_)
  intro rep
  simp only [Function.comp_apply]
  rw [List.filter_cons_of_neg (by simp [isQueryE]), List.filter_append,
    List.filter_cons_of_neg (by simp [isQueryE]), List.filter_nil,
    List.append_nil]
  rw [filter_flatten, List.map_map, List.map_flatten, List.map_map]
  refine congrArg List.flatten (map_congr_fun _ _ _ ?_)
  intro b
  simp only [Function.comp_apply]
  rw [filter_flatten, List.map_map, List.map_flatten, List.map_map]
  refine congrArg List.flatten (map_congr_fun _ _ _ ?_)
  intro dr
  simp only [Function.comp_apply]
  rw [List.filter_append, cellWrites_filter_query, List.append_nil,
    filter_flatten, List.map_map, List.map_map]
  refine Eq.trans (congrArg List.flatten
    (map_congr_fun _ (fun c => [attemptEvent q (rep, b, dr, c)]) _ ?_)) ?_
  · intro c
    simp only [Function.comp_apply]
    rw [chunkEvents_filter_query]
    rfl
  · rw [flatten_map_singleton]
    exact map_congr_fun _ _ _ (fun c => rfl)

theorem filterMap_congr_fun {α β : Type} (f g : α → Option β) (l : List α)
    (h : ∀ a, f a = g a) : l.filterMap f = l.filterMap g := by
  induction l with
  | nil => rfl
  | cons a as ih => rw [List.filterMap_cons, List.filterMap_cons, h a, ih]

theorem countP_congr_fun {α : Type} (f g : α → Bool) (l : List α)
    (h : ∀ a, f a = g a) : l.countP f = l.countP g := by
  induction l with
  | nil => rfl
  | cons a as ih => rw [List.countP_cons, List.countP_cons, h a, ih]

theorem flatten_map_nil {α β : Type} (l : List α) :
    (l.map (fun _ => ([] : List β))).flatten = [] := by
  induction l with
  | nil => rfl
  | cons a as ih => rw [List.map_cons, List.flatten_cons, ih]; rfl

/-- The error list of a run is exactly one record per failed attempt, in
order. -/
theorem run_errors_eq (q : Query) (cfg : BatchConfig) :
    (run_batch q cfg).errors = (attempts cfg).filterMap (attemptError q) := by
  rw [run_batch_eq]
  show runErrors q cfg = _
  unfold runErrors reportErrors cellErrors attempts
  rw [filterMap_flatten, List.map_map]
  refine congrArg List.flatten (map_congr_fun _ _ _ ?_)
  intro rep
  simp only [Function.comp_apply]
  rw [filterMap_flatten, List.map_map]
  refine congrArg List.flatten (map_congr_fun _ _ _ ?_)
  intro b
  simp only [Function.comp_apply]
  rw [filterMap_flatten, List.map_map]
  refine congrArg List.flatten (map_congr_fun _ _ _ ?_)
  intro dr
  simp only [Function.comp_apply]
  rw [List.filterMap_map]
  exact filterMap_congr_fun _ _ _ (fun c => rfl)

/-- The query counter of a run counts exactly the successful attempts. -/
theorem run_total_eq (q : Query) (cfg : BatchConfig) :
    (run_batch q cfg).total_queries = (attempts cfg).countP (attemptOk q) := by
  rw [run_batch_eq]
  show runCount q cfg = _
  unfold runCount reportCount cellQueryCount attempts
  rw [countP_flatten, List.map_map]
  refine congrArg List.sum (map_congr_fun _ _ _ ?_)
  intro rep
  simp only [Function.comp_apply]
  rw [countP_flatten, List.map_map]
  refine congrArg List.sum (map_congr_fun _ _ _ ?_)
  intro b
  simp only [Function.comp_apply]
  rw [countP_flatten, List.map_map]
  refine congrArg List.sum (map_congr_fun _ _ _ ?_)
  intro dr
  simp only [Function.comp_apply]
  rw [List.countP_map]
  exact countP_congr_fun _ _ _ (fun c => rfl)

/-- The row-write events of a run are, cell by cell in iteration order,
exactly each cell's finished rows. -/
theorem run_write_events (q : Query) (cfg : BatchConfig) :
    writeEvents (run_batch q cfg).trace =
      (cfg.reports.map (fun rep =>
        (cfg.brands.map (fun b =>
          (cfg.date_ranges.map (fun dr =>
            cellWrites q rep (metricChunksOf rep) b dr)).flatten)).flatten)).flatten := by
  rw [run_batch_eq]
  show (runTrace q cfg).filter isWriteE = _
  unfold runTrace reportEvents reportCellEvents cellEvents
  rw [filter_flatten, List.map_map]
  refine congrArg List.flatten (map_congr_fun _ _ _ ?_)
  intro rep
  simp only [Function.comp_apply]
  rw [List.filter_cons_of_neg (by simp [isWriteE]), List.filter_append,
    List.filter_cons_of_neg (by simp [isWriteE]), List.filter_nil,
    List.append_nil]
  rw [filter_flatten, List.map_map]
  refine congrArg List.flatten (map_congr_fun _ _ _ ?_)
  intro b
  simp only [Function.comp_apply]
  rw [filter_flatten, List.map_map]
  refine congrArg List.flatten (map_congr_fun _ _ _ ?_)
  intro dr
  simp only [Function.comp_apply]
  rw [List.filter_append, cellWrites_filter_write, filter_flatten,
    List.map_map]
  have hnil : (List.map ((fun l => List.filter isWriteE l) ∘ chunkEvents q rep b dr)
      (metricChunksOf rep)).flatten = ([] : List Event) := by
    rw [map_congr_fun ((fun l => List.filter isWriteE l) ∘ chunkEvents q rep b dr)
      (fun _ => ([] : List Event)) (metricChunksOf rep)
      (fun c => chunkEvents_filter_write q rep b dr c)]
    exact flatten_map_nil _
  rw [hnil, List.nil_append]

/-! ## Claims about the orchestrator -/

/-- C3. Query Executor failures are isolated: for every configuration and
every oracle, the run returns normally with exactly one executor call per
`(report, unit, window, chunk)` attempt of the full iteration — no failure
aborts a cell, a unit, a window, a report or the run — and each failed
call is converted into exactly one error record appended in iteration
order, never propagated. -/
theorem query_failures_isolated (q : Query) (cfg : BatchConfig) :
    (run_batch q cfg).errors = (attempts cfg).filterMap (attemptError q) ∧
    queryEvents (run_batch q cfg).trace = (attempts cfg).map (attemptEvent q) :=
  ⟨run_errors_eq q cfg, run_query_events q cfg⟩

/-- The success flag of an event, when it is an executor call. -/
def queryOk : Event → Option Bool
  | Event.query _ _ _ _ ok => some ok
  | _ => none

/-- The duration of an event, when it is a suspension. -/
def sleepDur : Event → Option ℚ
  | Event.sleep t => some t
  | _ => none

/-- The delay the Rate Controller must apply after a call with the given
outcome: the base delay after success, twice the base delay after failure. -/
def expectedSleep (ok : Bool) : ℚ :=
  if ok then REQUEST_DELAY_SECONDS else REQUEST_DELAY_SECONDS * 2

/-- Scans a trace checking that every executor call is immediately
followed by the rate-controller suspension matching its outcome. -/
def ratePattern : List Event → Bool
  | [] => true
  | e :: rest =>
      match queryOk e with
      | some ok =>
          match rest with
          | e2 :: rest2 =>
              decide (sleepDur e2 = some (expectedSleep ok)) && ratePattern rest2
          | [] => false
      | none => ratePattern rest

theorem ratePattern_cons_query (r b p : String) (c : List String) (ok : Bool)
    (e2 : Event) (rest2 : List Event) :
    ratePattern (Event.query r b p c ok :: e2 :: rest2) =
      (decide (sleepDur e2 = some (expectedSleep ok)) && ratePattern rest2) := rfl

theorem ratePattern_cons_skip (e : Event) (rest : List Event)
    (he : queryOk e = none) :
    ratePattern (e :: rest) = ratePattern rest := by
  rw [ratePattern, he]

theorem ratePattern_query_last (r b p : String) (c : List String) (ok : Bool) :
    ratePattern [Event.query r b p c ok] = false := rfl

theorem ratePattern_append :
    ∀ (a b : List Event), ratePattern a = true → ratePattern b = true →
      ratePattern (a ++ b) = true := by
  have main : ∀ (n : Nat) (a b : List Event), a.length ≤ n →
      ratePattern a = true → ratePattern b = true →
      ratePattern (a ++ b) = true := by
    intro n
    induction n with
    | zero =>
      intro a b ha h1 h2
      have : a = [] := List.eq_nil_of_length_eq_zero (by omega)
      subst this
      simpa using h2
    | succ k ih =>
      intro a b ha h1 h2
      cases a with
      | nil => simpa using h2
      | cons e rest =>
        cases e with
        | query r br p c ok =>
          cases rest with
          | nil => exact absurd h1 (by rw [ratePattern_query_last]; simp)
          | cons e2 rest2 =>
            rw [List.cons_append, List.cons_append, ratePattern_cons_query]
            rw [ratePattern_cons_query] at h1
            have h1a : decide (sleepDur e2 = some (expectedSleep ok)) = true ∧
                ratePattern rest2 = true := by
              simpa using h1
            rw [h1a.1, ih rest2 b (by simp at ha; omega) h1a.2 h2]
            rfl
        | sleep t =>
          rw [List.cons_append, ratePattern_cons_skip (Event.sleep t) _ rfl]
          rw [ratePattern_cons_skip (Event.sleep t) _ rfl] at h1
          exact ih rest b (by simp at ha; omega) h1 h2
        | openFile r fs =>
          rw [List.cons_append, ratePattern_cons_skip (Event.openFile r fs) _ rfl]
          rw [ratePattern_cons_skip (Event.openFile r fs) _ rfl] at h1
          exact ih rest b (by simp at ha; omega) h1 h2
        | writeRow r row =>
          rw [List.cons_append, ratePattern_cons_skip (Event.writeRow r row) _ rfl]
          rw [ratePattern_cons_skip (Event.writeRow r row) _ rfl] at h1
          exact ih rest b (by simp at ha; omega) h1 h2
        | closeFile r =>
          rw [List.cons_append, ratePattern_cons_skip (Event.closeFile r) _ rfl]
          rw [ratePattern_cons_skip (Event.closeFile r) _ rfl] at h1
          exact ih rest b (by simp at ha; omega) h1 h2
  exact fun a b => main a.length a b le_rfl

theorem ratePattern_flatten (ls : List (List Event))
    (h : ∀ x ∈ ls, ratePattern x = true) : ratePattern ls.flatten = true := by
  induction ls with
  | nil => rfl
  | cons l ls ih =>
    rw [List.flatten_cons]
    exact ratePattern_append l ls.flatten (h l (List.mem_cons_self _ _))
      (ih (fun x hx => h x (List.mem_cons_of_mem _ hx)))

theorem ratePattern_no_query (l : List Event)
    (h : ∀ e ∈ l, queryOk e = none) : ratePattern l = true := by
  induction l with
  | nil => rfl
  | cons e rest ih =>
    rw [ratePattern_cons_skip e rest (h e (List.mem_cons_self _ _))]
    exact ih (fun x hx => h x (List.mem_cons_of_mem _ hx))

theorem ratePattern_chunkEvents (q : Query) (rep : ReportCfg) (b : Brand)
    (dr : DateRangeCfg) (c : List String) :
    ratePattern (chunkEvents q rep b dr c) = true := by
  rcases hc : callQ q rep b dr c with e | rows <;>
    simp [chunkEvents, hc, ratePattern, queryOk, sleepDur, expectedSleep]

theorem ratePattern_cellEvents (q : Query) (rep : ReportCfg)
    (chunks : List (List String)) (b : Brand) (dr : DateRangeCfg) :
    ratePattern (cellEvents q rep chunks b dr) = true := by
  unfold cellEvents
  refine ratePattern_append _ _ ?_ ?_
  · refine ratePattern_flatten _ ?_
    intro x hx
    rcases List.mem_map.mp hx with ⟨c, _, rfl⟩
    exact ratePattern_chunkEvents q rep b dr c
  · refine ratePattern_no_query _ ?_
    intro e he
    rcases List.mem_map.mp he with ⟨kv, _, rfl⟩
    rfl

/-- C4 counterexample. In a run with a single successful attempt, no
rate-controller suspension precedes the first executor call (the trace up
to the first call contains no sleep), refuting the claim that the Rate
Controller is invoked before the first Query Executor call. -/
theorem no_delay_before_first_query :
    (((run_batch (fun _ _ _ _ _ _ => Except.ok [])
        ⟨[⟨"Acme", "123"⟩], [⟨"last30", "30daysAgo", "today"⟩],
          [⟨"geo", [], ["sessions"], none⟩]⟩).trace.takeWhile
      (fun e => !(isQueryE e))).filter isSleepE) = [] ∧
    queryEvents (run_batch (fun _ _ _ _ _ _ => Except.ok [])
        ⟨[⟨"Acme", "123"⟩], [⟨"last30", "30daysAgo", "today"⟩],
          [⟨"geo", [], ["sessions"], none⟩]⟩).trace ≠ [] := by
  constructor
  · decide
  · decide

/-- C4 amended. The Rate Controller is invoked after every Query Executor
call (but not before the first): in every run's trace each executor call
is immediately followed by a suspension of the base delay (1.0) after a
success and exactly twice the base delay after a failure, and every
attempt is called exactly once — failed chunk queries are never retried. -/
theorem rate_control_after_each_call (q : Query) (cfg : BatchConfig) :
    ratePattern (run_batch q cfg).trace = true ∧
    queryEvents (run_batch q cfg).trace = (attempts cfg).map (attemptEvent q) := by
  refine ⟨?_, run_query_events q cfg⟩
  rw [run_batch_eq]
  show ratePattern (runTrace q cfg) = true
  unfold runTrace
  refine ratePattern_flatten _ ?_
  intro x hx
  rcases List.mem_map.mp hx with ⟨rep, _, rfl⟩
  unfold reportEvents
  rw [ratePattern_cons_skip (Event.openFile rep.name (fieldnames rep)) _ rfl]
  refine ratePattern_append _ _ ?_
    (by rw [ratePattern_cons_skip (Event.closeFile rep.name) _ rfl]; rfl)
  unfold reportCellEvents
  refine ratePattern_flatten _ ?_
  intro y hy
  rcases List.mem_map.mp hy with ⟨b, _, rfl⟩
  refine ratePattern_flatten _ ?_
  intro z hz
  rcases List.mem_map.mp hz with ⟨dr, _, rfl⟩
  exact ratePattern_cellEvents q rep (metricChunksOf rep) b dr

theorem length_filterMap_eq_countP {α β : Type} (f : α → Option β)
    (l : List α) : (l.filterMap f).length = l.countP (fun a => (f a).isSome) := by
  induction l with
  | nil => rfl
  | cons a as ih =>
    rw [List.filterMap_cons, List.countP_cons]
    rcases hf : f a with _ | v
    · simp [hf, ih]
    · simp [hf, ih]

theorem countP_add_countP_not {α : Type} (p : α → Bool) (l : List α) :
    l.countP p + l.countP (fun a => !(p a)) = l.length := by
  induction l with
  | nil => rfl
  | cons a as ih =>
    rw [List.countP_cons, List.countP_cons, List.length_cons]
    rcases hp : p a with _ | _ <;> simp [hp] <;> omega

theorem attemptError_isSome (q : Query)
    (a : ReportCfg × Brand × DateRangeCfg × List String) :
    (attemptError q a).isSome = !(attemptOk q a) := by
  unfold attemptError attemptOk chunkError isOkE
  rcases hc : callQ q a.1 a.2.1 a.2.2.1 a.2.2.2 with e | rows <;> simp [hc]

/-- C5. Run-summary counters: `total_queries` equals the number of
successful executor calls and the error list has exactly one entry per
failed call; in particular, when exactly one attempt among all
`(unit, window, chunk)` attempts fails, `total_queries` equals the total
attempted minus one and the error list has length one. -/
theorem run_summary_counts (q : Query) (cfg : BatchConfig) :
    (run_batch q cfg).total_queries = (attempts cfg).countP (attemptOk q) ∧
    (run_batch q cfg).errors.length =
      (attempts cfg).countP (fun a => !(attemptOk q a)) ∧
    ((attempts cfg).countP (fun a => !(attemptOk q a)) = 1 →
      (run_batch q cfg).total_queries = (attempts cfg).length - 1 ∧
      (run_batch q cfg).errors.length = 1) := by
  have htot := run_total_eq q cfg
  have herr : (run_batch q cfg).errors.length =
      (attempts cfg).countP (fun a => !(attemptOk q a)) := by
    rw [run_errors_eq, length_filterMap_eq_countP]
    exact countP_congr_fun _ _ _ (fun a => attemptError_isSome q a)
  refine ⟨htot, herr, fun hone => ⟨?_, ?_⟩⟩
  · have hsum := countP_add_countP_not (attemptOk q) (attempts cfg)
    omega
  · rw [herr, hone]

/-- Witness for `run_summary_counts`: two brands × two windows × one
chunk (four attempts) with exactly one failing call yields three counted
queries and one error record. -/
theorem run_summary_counts_witness :
    (run_batch
        (fun pid sd _ _ _ _ =>
          if pid = "2" && sd = "2024-02-01" then Except.error "ServerError: quota"
          else Except.ok [])
        ⟨[⟨"A", "1"⟩, ⟨"B", "2"⟩],
         [⟨"jan", "2024-01-01", "2024-01-31"⟩, ⟨"feb", "2024-02-01", "2024-02-28"⟩],
         [⟨"geo", [], ["sessions"], none⟩]⟩).total_queries =
      (attempts ⟨[⟨"A", "1"⟩, ⟨"B", "2"⟩],
         [⟨"jan", "2024-01-01", "2024-01-31"⟩, ⟨"feb", "2024-02-01", "2024-02-28"⟩],
         [⟨"geo", [], ["sessions"], none⟩]⟩).length - 1 ∧
    (run_batch
        (fun pid sd _ _ _ _ =>
          if pid = "2" && sd = "2024-02-01" then Except.error "ServerError: quota"
          else Except.ok [])
        ⟨[⟨"A", "1"⟩, ⟨"B", "2"⟩],
         [⟨"jan", "2024-01-01", "2024-01-31"⟩, ⟨"feb", "2024-02-01", "2024-02-28"⟩],
         [⟨"geo", [], ["sessions"], none⟩]⟩).errors.length = 1 :=
  (run_summary_counts
      (fun pid sd _ _ _ _ =>
        if pid = "2" && sd = "2024-02-01" then Except.error "ServerError: quota"
        else Except.ok [])
      ⟨[⟨"A", "1"⟩, ⟨"B", "2"⟩],
       [⟨"jan", "2024-01-01", "2024-01-31"⟩, ⟨"feb", "2024-02-01", "2024-02-28"⟩],
       [⟨"geo", [], ["sessions"], none⟩]⟩).2.2 (by decide)

theorem mergeChunk_of_no_rows (q : Query) (rep : ReportCfg) (b : Brand)
    (dr : DateRangeCfg) (m : RowMap) (c : List String)
    (h : rowsOf (callQ q rep b dr c) = []) :
    mergeChunk q rep b dr m c = m := by
  unfold mergeChunk
  rcases hc : callQ q rep b dr c with e | rows
  · rfl
  · rw [hc] at h
    simp only [rowsOf] at h
    subst h
    rfl

theorem foldl_mergeChunk_of_no_rows (q : Query) (rep : ReportCfg) (b : Brand)
    (dr : DateRangeCfg) (chunks : List (List String))
    (h : ∀ c ∈ chunks, rowsOf (callQ q rep b dr c) = []) :
    chunks.foldl (mergeChunk q rep b dr) [] = [] := by
  induction chunks with
  | nil => rfl
  | cons c cs ih =>
    rw [List.foldl_cons,
      mergeChunk_of_no_rows q rep b dr [] c (h c (List.mem_cons_self _ _))]
    exact ih (fun c' hc' => h c' (List.mem_cons_of_mem _ hc'))

/-- C6. Header-only row synthesis: for a report with zero dimensions, a
cell all of whose chunk calls produced zero rows (whether empty results
or failures) contributes exactly one CombinedRow — the synthesized
header-only row — to the report's output; and the run's row writes are,
cell by cell, exactly each cell's finished rows, so such a combination
appears in the output exactly once rather than being omitted. -/
theorem header_row_synthesized (q : Query) (cfg : BatchConfig)
    (rep : ReportCfg) (b : Brand) (dr : DateRangeCfg)
    (h1 : rep.dimensions = [])
    (h2 : ∀ c ∈ metricChunksOf rep, rowsOf (callQ q rep b dr c) = []) :
    cellWrites q rep (metricChunksOf rep) b dr =
      [Event.writeRow rep.name (headerDict b.name b.property_id dr.label)] ∧
    writeEvents (run_batch q cfg).trace =
      (cfg.reports.map (fun rp =>
        (cfg.brands.map (fun bb =>
          (cfg.date_ranges.map (fun dd =>
            cellWrites q rp (metricChunksOf rp) bb dd)).flatten)).flatten)).flatten := by
  refine ⟨?_, run_write_events q cfg⟩
  unfold cellWrites cellMap
  rw [foldl_mergeChunk_of_no_rows q rep b dr _ h2]
  unfold synthTotal
  rw [if_pos (by simp [h1])]
  rfl

/-- Witness for `header_row_synthesized`: a zero-dimension report whose
single chunk returns no rows yields exactly the header-only row. -/
theorem header_row_synthesized_witness :
    cellWrites (fun _ _ _ _ _ _ => Except.ok [])
        ⟨"totals", [], ["sessions"], none⟩
        (metricChunksOf ⟨"totals", [], ["sessions"], none⟩)
        ⟨"Acme", "123"⟩ ⟨"last30", "30daysAgo", "today"⟩ =
      [Event.writeRow "totals" (headerDict "Acme" "123" "last30")] ∧
    writeEvents (run_batch (fun _ _ _ _ _ _ => Except.ok [])
        ⟨[⟨"Acme", "123"⟩], [⟨"last30", "30daysAgo", "today"⟩],
         [⟨"totals", [], ["sessions"], none⟩]⟩).trace =
      ((⟨[⟨"Acme", "123"⟩], [⟨"last30", "30daysAgo", "today"⟩],
         [⟨"totals", [], ["sessions"], none⟩]⟩ : BatchConfig).reports.map (fun rp =>
        ((⟨[⟨"Acme", "123"⟩], [⟨"last30", "30daysAgo", "today"⟩],
         [⟨"totals", [], ["sessions"], none⟩]⟩ : BatchConfig).brands.map (fun bb =>
          ((⟨[⟨"Acme", "123"⟩], [⟨"last30", "30daysAgo", "today"⟩],
         [⟨"totals", [], ["sessions"], none⟩]⟩ : BatchConfig).date_ranges.map (fun dd =>
            cellWrites (fun _ _ _ _ _ _ => Except.ok [])
              rp (metricChunksOf rp) bb dd)).flatten)).flatten)).flatten :=
  header_row_synthesized (fun _ _ _ _ _ _ => Except.ok [])
    ⟨[⟨"Acme", "123"⟩], [⟨"last30", "30daysAgo", "today"⟩],
     [⟨"totals", [], ["sessions"], none⟩]⟩
    ⟨"totals", [], ["sessions"], none⟩ ⟨"Acme", "123"⟩
    ⟨"last30", "30daysAgo", "today"⟩ rfl (by decide)

/-- C7 counterexample. With one report over two windows, the first cell's
row is written to the report's CSV (trace index 3) strictly before the
second cell's executor call (trace index 4): rows of a report reach the
sink while other cells of the same report are still unprocessed, refuting
the claim that the full set of CombinedRows is handed to the sink only
after all cells of the report complete. -/
theorem rows_reach_sink_before_report_done :
    (run_batch (fun _ _ _ _ _ _ => Except.ok [[("country", "US"), ("sessions", "5")]])
        ⟨[⟨"Acme", "123"⟩],
         [⟨"jan", "2024-01-01", "2024-01-31"⟩, ⟨"feb", "2024-02-01", "2024-02-28"⟩],
         [⟨"geo", ["country"], ["sessions"], none⟩]⟩).trace.get? 3 =
      some (Event.writeRow "geo"
        [("brand_name", "Acme"), ("property_id", "123"), ("period", "jan"),
         ("country", "US"), ("sessions", "5")]) ∧
    (run_batch (fun _ _ _ _ _ _ => Except.ok [[("country", "US"), ("sessions", "5")]])
        ⟨[⟨"Acme", "123"⟩],
         [⟨"jan", "2024-01-01", "2024-01-31"⟩, ⟨"feb", "2024-02-01", "2024-02-28"⟩],
         [⟨"geo", ["country"], ["sessions"], none⟩]⟩).trace.get? 4 =
      some (Event.query "geo" "Acme" "feb" ["sessions"] true) := by
  constructor
  · decide
  · decide

/-- C7 amended. Rows are handed to the sink cell by cell: the run's trace
is, report by report, the CSV header write, then for each (unit, window)
cell in order that cell's chunk calls immediately followed by that cell's
finished rows, and the file close after all of the report's cells — so a
cell's rows reach the sink as soon as its own chunks complete, and the
report's file is finalized only after all its cells. -/
theorem rows_handed_per_cell (q : Query) (cfg : BatchConfig) :
    (run_batch q cfg).trace =
      (cfg.reports.map (fun rep =>
        Event.openFile rep.name (fieldnames rep) ::
          (((cfg.brands.map (fun b =>
            (cfg.date_ranges.map (fun dr =>
              ((metricChunksOf rep).map (chunkEvents q rep b dr)).flatten ++
                cellWrites q rep (metricChunksOf rep) b dr)).flatten)).flatten) ++
            [Event.closeFile rep.name]))).flatten := by
  rw [run_batch_eq]
  rfl

/-- C8 counterexample. An empty window list or an empty report list is
not a fatal configuration error: the loader accepts such configs and
`run_batch` returns normally with zero queries and no errors (for an
empty window list it still creates and closes the report's CSV), so the
run does not abort in these two of the three claimed cases. -/
theorem empty_window_or_report_list_not_fatal :
    load_batch_config ⟨[⟨"Acme", "123"⟩], [], [⟨"geo", [], ["sessions"], none⟩]⟩ =
      Except.ok ⟨[⟨"Acme", "123"⟩], [], [⟨"geo", [], ["sessions"], none⟩]⟩ ∧
    run_batch (fun _ _ _ _ _ _ => Except.ok [])
        ⟨[⟨"Acme", "123"⟩], [], [⟨"geo", [], ["sessions"], none⟩]⟩ =
      ⟨0, [], [Event.openFile "geo" ["brand_name", "property_id", "period", "sessions"],
               Event.closeFile "geo"]⟩ ∧
    run_batch (fun _ _ _ _ _ _ => Except.ok [])
        ⟨[⟨"Acme", "123"⟩], [⟨"jan", "2024-01-01", "2024-01-31"⟩], []⟩ =
      ⟨0, [], []⟩ := by
  refine ⟨rfl, ?_, ?_⟩
  · decide
  · decide

/-- C8 amended. Of the three claimed fatal cases only the unit list is
checked: a brand list with no usable `property_id` makes the loader exit
with code 1 before any query; an empty window list or an empty report
list is accepted silently and the run completes normally, issuing no
queries and recording no errors. -/
theorem empty_config_behavior (cfg : BatchConfig) (q : Query) :
    ((cfg.brands.filter (fun b => b.property_id ≠ "FILL_IN")).isEmpty = true →
      load_batch_config cfg = Except.error 1) ∧
    (cfg.date_ranges = [] →
      queryEvents (run_batch q cfg).trace = [] ∧ (run_batch q cfg).errors = []) ∧
    (cfg.reports = [] → run_batch q cfg = ⟨0, [], []⟩) := by
  refine ⟨?_, ?_, ?_⟩
  · intro h
    unfold load_batch_config
    rw [if_pos h]
  · intro h
    constructor
    · rw [run_query_events]
      simp [attempts, h, flatten_map_nil]
    · rw [run_errors_eq]
      simp [attempts, h, flatten_map_nil]
  · intro h
    unfold run_batch
    rw [h]
    rfl

/-- Witness for `empty_config_behavior` at a config with only a
placeholder brand, no windows and no reports. -/
theorem empty_config_behavior_witness :
    load_batch_config ⟨[⟨"Unset", "FILL_IN"⟩], [], []⟩ = Except.error 1 ∧
    (queryEvents (run_batch (fun _ _ _ _ _ _ => Except.ok [])
        ⟨[⟨"Unset", "FILL_IN"⟩], [], []⟩).trace = [] ∧
      (run_batch (fun _ _ _ _ _ _ => Except.ok [])
        ⟨[⟨"Unset", "FILL_IN"⟩], [], []⟩).errors = []) ∧
    run_batch (fun _ _ _ _ _ _ => Except.ok [])
        ⟨[⟨"Unset", "FILL_IN"⟩], [], []⟩ = ⟨0, [], []⟩ := by
  have h := empty_config_behavior ⟨[⟨"Unset", "FILL_IN"⟩], [], []⟩
    (fun _ _ _ _ _ _ => Except.ok [])
  exact ⟨h.1 (by decide), h.2.1 rfl, h.2.2 rfl⟩
